import Mathlib

/-!
Shallow embedding of the open-addressing hash table
(`OpenAddressingHashTable` in
`src/docs/Rust/data structures and algorithms/01-Fundamental Data
Structures/05-Hash Tables.rs`, lines 318–493) together with proofs about
its insert / get / remove / resize operations.

Modelling conventions:
* The Rust hash function (`DefaultHasher` on the key) is abstracted as an
  explicit parameter `h : K → Nat`; the source treats it as a deterministic
  total function of the key, and every statement below is universally
  quantified over it.
* `usize` arithmetic is modelled with `Nat`; no quantity here ever
  approaches `2 ^ 64`, so wrap-around is irrelevant.
* The `panic!("Hash table is full even after resizing")` branch of `insert`
  is modelled by returning `none` (the outer `Option` of `insert`'s result).
* `load_factor_threshold` is the constant `0.7 : f64` and is never mutated,
  so it is not stored in the state; `should_resize` compares exactly as the
  `f64` comparison does, see its doc comment.
* The mutual recursion `insert → resize → insert` is embedded with a fuel
  argument; the recursion depth in the source is at most 2 because the
  re-inserts performed by `resize` never trigger a nested resize (proved
  below as part of `reinsertAll_spec`), so the top-level entry points use
  fuel 2.
-/

set_option linter.unusedSectionVars false

namespace OriginByte

/-- Slot of the open-addressing table: `OpenAddressingEntry` in the source
(`Occupied(K, V) | Deleted | Empty`). -/
inductive Entry (K V : Type) where
  | occupied (key : K) (value : V)
  | deleted
  | empty
deriving DecidableEq

/-- The table state: `OpenAddressingHashTable { table, size, capacity }`.
The constant field `load_factor_threshold = 0.7` is not represented (it is
never written after construction). -/
structure OpenAddressingHashTable (K V : Type) where
  table : List (Entry K V)
  size : Nat
  capacity : Nat
deriving DecidableEq

namespace OpenAddressingHashTable

variable {K V : Type} [DecidableEq K]

/-- Doubling loop of `next_power_of_two`, made structurally recursive with a
fuel argument so that it evaluates inside the kernel.  With fuel `n` it
computes the same value as Rust's `usize::next_power_of_two` (`2 ^ (n - 1) ≥ n`
holds for every `n ≥ 1`, so the fuel never runs out before the loop
condition fails). -/
def nextPow2Go (n : Nat) : Nat → Nat → Nat
  | 0, power => power
  | fuel + 1, power => if power < n then nextPow2Go n fuel (power * 2) else power

/-- Rust's `usize::next_power_of_two`: the smallest power of two that is
greater than or equal to `n` (and `1` for `n = 0`). -/
def nextPow2 (n : Nat) : Nat := nextPow2Go n n 1

/-- Constructor `with_capacity`: rounds the requested capacity up to a power
of two and fills the table with `Empty` slots. -/
def with_capacity (c : Nat) : OpenAddressingHashTable K V :=
  let c := nextPow2 c
  { table := List.replicate c .empty, size := 0, capacity := c }

/-- Constructor `new()`, which is `with_capacity(16)`. -/
def new : OpenAddressingHashTable K V := with_capacity 16

/-- The probe-position function `hash_key`: `(hash + probe) & (capacity - 1)`
where `hash` is the hash of the key. -/
def hash_key (h : K → Nat) (t : OpenAddressingHashTable K V) (key : K)
    (probe : Nat) : Nat :=
  (h key + probe) &&& (t.capacity - 1)

/-- Resize trigger `should_resize`: the source computes
`size as f64 / capacity as f64 > 0.7`.  For any capacity that is a power of
two at most `2 ^ 52`, the `f64` division is exact (a dyadic rational), the
nearest double to `0.7` is `3152519739159347 / 2 ^ 52 < 7 / 10`, and no
dyadic rational with denominator dividing `2 ^ 52` lies strictly between
that double and `7 / 10`; hence the `f64` comparison holds exactly when
`10 * size > 7 * capacity`. -/
def should_resize (t : OpenAddressingHashTable K V) : Bool :=
  7 * t.capacity < 10 * t.size

/-- The slot stored at table index `i` (out-of-range reads never occur on
well-formed states, where `table.length = capacity` bounds every probe
index). -/
def slotAt (t : OpenAddressingHashTable K V) (i : Nat) : Entry K V :=
  t.table.getD i .empty

/-- Probe loop of `insert` (source lines 360–384): for each
`probe in 0..capacity`, place at the first `Empty` or `Deleted` slot
(incrementing `size`), or replace the value behind a matching `Occupied`
key (returning the old value); `none` models the
`panic!("Hash table is full even after resizing")` reached when all
`capacity` probes are exhausted. -/
def insertGo (h : K → Nat) (key : K) (value : V) :
    OpenAddressingHashTable K V → Nat → Nat →
    Option (Option V × OpenAddressingHashTable K V)
  | _, 0, _ => none
  | t, fuel + 1, probe =>
    let index := hash_key h t key probe
    match t.table.getD index .empty with
    | .empty =>
      some (none, { t with table := t.table.set index (.occupied key value),
                           size := t.size + 1 })
    | .occupied existing_key existing_value =>
      if existing_key = key then
        some (some existing_value,
          { t with table := t.table.set index (.occupied existing_key value) })
      else
        insertGo h key value t fuel (probe + 1)
    | .deleted =>
      some (none, { t with table := t.table.set index (.occupied key value),
                           size := t.size + 1 })

/-- The re-insertion loop of `resize` (source lines 484–490): walk the old
table in slot order and insert every `Occupied` entry into the accumulator
table.  The insert operation is passed as a parameter (`ins`); in the
source it is the method call `new_table.insert(key.clone(), value.clone())`. -/
def reinsertWith
    (ins : OpenAddressingHashTable K V → K → V →
      Option (Option V × OpenAddressingHashTable K V)) :
    List (Entry K V) → OpenAddressingHashTable K V →
    Option (OpenAddressingHashTable K V)
  | [], acc => some acc
  | .occupied key value :: rest, acc =>
    match ins acc key value with
    | none => none
    | some (_, acc') => reinsertWith ins rest acc'
  | .deleted :: rest, acc => reinsertWith ins rest acc
  | .empty :: rest, acc => reinsertWith ins rest acc

/-- Fueled `insert` (source lines 355–385): resize first when
`should_resize`, then run the probe loop.  The fuel bounds the
`insert → resize → insert` recursion depth (exhausted fuel at a triggered
resize is modelled as the panic `none`); depth 2 suffices on well-formed
states because the re-inserts performed by a resize never trigger a nested
resize (`reinsertAll_spec` below). -/
def insertF (h : K → Nat) :
    Nat → OpenAddressingHashTable K V → K → V →
    Option (Option V × OpenAddressingHashTable K V)
  | 0, t, key, value =>
    if should_resize t then none
    else insertGo h key value t t.capacity 0
  | fuel + 1, t, key, value =>
    match (if should_resize t then
             reinsertWith (insertF h fuel) t.table
               { table := List.replicate (t.capacity * 2) .empty, size := 0,
                 capacity := t.capacity * 2 }
           else some t) with
    | none => none
    | some t1 => insertGo h key value t1 t1.capacity 0

/-- Fueled `resize` (source lines 477–493): allocate a fresh table of double
capacity and re-insert every `Occupied` entry in slot order via `insert`
(at the given fuel). -/
def resizeF (h : K → Nat) (fuel : Nat) (t : OpenAddressingHashTable K V) :
    Option (OpenAddressingHashTable K V) :=
  reinsertWith (insertF h fuel) t.table
    { table := List.replicate (t.capacity * 2) .empty, size := 0,
      capacity := t.capacity * 2 }

/-- Top-level `insert`: fuel 2 covers the maximal recursion depth reached
from any well-formed state (a triggered resize whose re-inserts never
themselves resize). -/
def insert (h : K → Nat) (t : OpenAddressingHashTable K V) (key : K)
    (value : V) : Option (Option V × OpenAddressingHashTable K V) :=
  insertF h 2 t key value

/-- Top-level `resize`, with the same fuel as `insert`'s nested call. -/
def resize (h : K → Nat) (t : OpenAddressingHashTable K V) :
    Option (OpenAddressingHashTable K V) :=
  resizeF h 1 t

/-- Probe loop of `get` (source lines 387–407): matching `Occupied` returns
the value, `Empty` terminates with `none`, `Deleted` is skipped, and
exhausting `capacity` probes returns `none`. -/
def getGo (h : K → Nat) (key : K) :
    OpenAddressingHashTable K V → Nat → Nat → Option V
  | _, 0, _ => none
  | t, fuel + 1, probe =>
    match t.table.getD (hash_key h t key probe) .empty with
    | .occupied existing_key existing_value =>
      if existing_key = key then some existing_value
      else getGo h key t fuel (probe + 1)
    | .empty => none
    | .deleted => getGo h key t fuel (probe + 1)

/-- Lookup `get`. -/
def get (h : K → Nat) (t : OpenAddressingHashTable K V) (key : K) :
    Option V :=
  getGo h key t t.capacity 0

/-- Probe loop of `remove` (source lines 431–455): on a matching `Occupied`
slot, replace it by `Deleted`, decrement `size` and return the value;
`Empty` terminates with `none`; `Deleted` is skipped; exhausting `capacity`
probes returns `none`.  The table is returned unchanged in the `none`
cases. -/
def removeGo (h : K → Nat) (key : K) :
    OpenAddressingHashTable K V → Nat → Nat →
    Option V × OpenAddressingHashTable K V
  | t, 0, _ => (none, t)
  | t, fuel + 1, probe =>
    let index := hash_key h t key probe
    match t.table.getD index .empty with
    | .occupied existing_key existing_value =>
      if existing_key = key then
        (some existing_value,
          { t with table := t.table.set index .deleted, size := t.size - 1 })
      else removeGo h key t fuel (probe + 1)
    | .empty => (none, t)
    | .deleted => removeGo h key t fuel (probe + 1)

/-- Top-level `remove`. -/
def remove (h : K → Nat) (t : OpenAddressingHashTable K V) (key : K) :
    Option V × OpenAddressingHashTable K V :=
  removeGo h key t t.capacity 0

/-- Whether a slot is `Occupied`. -/
def isOccupied : Entry K V → Bool
  | .occupied _ _ => true
  | _ => false

/-- Number of `Occupied` slots of a table. -/
def occupiedCount (l : List (Entry K V)) : Nat :=
  l.countP isOccupied

/-- The key-value pairs of the `Occupied` slots, in slot order. -/
def occPairs : List (Entry K V) → List (K × V)
  | [] => []
  | .occupied k v :: rest => (k, v) :: occPairs rest
  | .deleted :: rest => occPairs rest
  | .empty :: rest => occPairs rest

/-- First-match association-list lookup (reference semantics used to state
resize preservation). -/
def assocFind : List (K × V) → K → Option V
  | [], _ => none
  | (k', v) :: rest, k => if k' = k then some v else assocFind rest k

/-- A probed slot that makes `get`'s loop continue past it: `Occupied` with
a different key, or `Deleted`. -/
def isSkip : Entry K V → K → Bool
  | .occupied ek _, k => ek ≠ k
  | .deleted, _ => true
  | .empty, _ => false

/-- A slot that makes `insert`'s loop continue past it: `Occupied` with a
different key (the only case in which `insert` keeps probing). -/
def occOther : Entry K V → K → Bool
  | .occupied ek _, k => ek ≠ k
  | _, _ => false

/-- A single client operation, used to describe reachable executions. -/
inductive Op (K V : Type) where
  | ins (key : K) (value : V)
  | del (key : K)

/-- Run a sequence of client operations, propagating `insert`'s panic as
`none`. -/
def runOps (h : K → Nat) :
    List (Op K V) → OpenAddressingHashTable K V →
    Option (OpenAddressingHashTable K V)
  | [], t => some t
  | .ins k v :: rest, t =>
    match insert h t k v with
    | none => none
    | some (_, t') => runOps h rest t'
  | .del k :: rest, t => runOps h rest (remove h t k).2

/-- States reachable from a freshly constructed map by `insert`, `remove`
and `resize` operations. -/
inductive Reachable (h : K → Nat) : OpenAddressingHashTable K V → Prop where
  | base (c : Nat) : Reachable h (with_capacity c)
  | insert_step {t t' : OpenAddressingHashTable K V} {key : K} {value : V}
      {r : Option V} (ht : Reachable h t)
      (hstep : insert h t key value = some (r, t')) : Reachable h t'
  | remove_step {t t' : OpenAddressingHashTable K V} {key : K}
      {r : Option V} (ht : Reachable h t)
      (hstep : remove h t key = (r, t')) : Reachable h t'
  | resize_step {t t' : OpenAddressingHashTable K V} (ht : Reachable h t)
      (hstep : resize h t = some t') : Reachable h t'

/-- Structural well-formedness maintained by every operation: the table has
exactly `capacity` slots, the capacity is a power of two, and `size` counts
the `Occupied` slots. -/
structure Wf (t : OpenAddressingHashTable K V) : Prop where
  len_eq : t.table.length = t.capacity
  pow2 : ∃ m, t.capacity = 2 ^ m
  size_eq : t.size = occupiedCount t.table

/-- Keys of distinct `Occupied` slots are pairwise distinct (no key is
stored twice). -/
def KeysNodup (t : OpenAddressingHashTable K V) : Prop :=
  ((occPairs t.table).map Prod.fst).Nodup

/-- Every stored entry can be retrieved: the probe-chain invariant of the
specification. -/
def AllRetrievable (h : K → Nat) (t : OpenAddressingHashTable K V) : Prop :=
  ∀ i k v, i < t.table.length → t.table.getD i .empty = .occupied k v →
    get h t k = some v

/-- Contribution of one slot to `occupiedCount`. -/
def occBit (e : Entry K V) : Nat := if isOccupied e then 1 else 0

/-- Whether a slot is `Occupied` with precisely the key `k`. -/
def isKeyAt (k : K) : Entry K V → Bool
  | .occupied ek _ => ek = k
  | _ => false

/-- The key `k` occupies at most one slot of the table. -/
def AtMostOne (k : K) (t : OpenAddressingHashTable K V) : Prop :=
  ∀ i, i < t.table.length → ∀ j, j < t.table.length →
    isKeyAt k (t.table.getD i .empty) = true →
    isKeyAt k (t.table.getD j .empty) = true → i = j

/-- State after `insert k1 v1` on a freshly constructed map: the entry sits
at `k1`'s probe-0 position. -/
def reuse1 (h : K → Nat) (c : Nat) (k1 : K) (v1 : V) :
    OpenAddressingHashTable K V :=
  { (with_capacity c : OpenAddressingHashTable K V) with
    table := (with_capacity c : OpenAddressingHashTable K V).table.set
      (hash_key h (with_capacity c : OpenAddressingHashTable K V) k1 0) (.occupied k1 v1),
    size := (with_capacity c : OpenAddressingHashTable K V).size + 1 }

/-- State after then removing `k1`: its slot is a tombstone. -/
def reuse2 (h : K → Nat) (c : Nat) (k1 : K) (v1 : V) :
    OpenAddressingHashTable K V :=
  { (reuse1 h c k1 v1) with
    table := (reuse1 h c k1 v1).table.set
      (hash_key h (reuse1 h c k1 v1) k1 0) .deleted,
    size := (reuse1 h c k1 v1).size - 1 }

/-- State after then inserting a colliding key `k2`: it reuses the
tombstone slot. -/
def reuse3 (h : K → Nat) (c : Nat) (k1 k2 : K) (v1 v2 : V) :
    OpenAddressingHashTable K V :=
  { (reuse2 h c k1 v1) with
    table := (reuse2 h c k1 v1).table.set
      (hash_key h (reuse2 h c k1 v1) k2 0) (.occupied k2 v2),
    size := (reuse2 h c k1 v1).size + 1 }

/-- Identity hash on `Nat` keys, used for the concrete executions below
(the claims are quantified over the hash function, so any concrete choice
is admissible). -/
def natHash : Nat → Nat := fun n => n

/-- State reached by `insert 0 10; insert 4 20; remove 0` on a fresh
capacity-4 map: key 4 is stored at slot 1 while a tombstone sits at slot 0,
which is probed first for key 4 (both keys hash to index 0). -/
def tombState : OpenAddressingHashTable Nat Nat :=
  { table := [.deleted, .occupied 4 20, .empty, .empty], size := 1,
    capacity := 4 }

/-- Duplicate-key state reached by inserting key 4 again on `tombState`:
the tombstone is filled without noticing the old copy, so key 4 occupies
two slots. -/
def dupState : OpenAddressingHashTable Nat Nat :=
  { table := [.occupied 4 30, .occupied 4 20, .empty, .empty], size := 2,
    capacity := 4 }

/-- State holding the single entry `0 ↦ 10` in a capacity-4 table. -/
def oneKeyState : OpenAddressingHashTable Nat Nat :=
  { table := [.occupied 0 10, .empty, .empty, .empty], size := 1,
    capacity := 4 }

/-- Well-formed duplicate-free state with entries `0 ↦ 10` and `4 ↦ 20`. -/
def twoKeyState : OpenAddressingHashTable Nat Nat :=
  { table := [.occupied 0 10, .occupied 4 20, .empty, .empty], size := 2,
    capacity := 4 }

/-- State holding the single entry `4 ↦ 20` (at key 4's probe-0 slot). -/
def singleState : OpenAddressingHashTable Nat Nat :=
  { table := [.occupied 4 20, .empty, .empty, .empty], size := 1,
    capacity := 4 }

/-- State after inserting the twelve distinct keys 0..11 (each mapped to
itself) into `new()`: the load factor is 12/16 = 0.75 > 0.7. -/
def twelveState : OpenAddressingHashTable Nat Nat :=
  { table := [.occupied 0 0, .occupied 1 1, .occupied 2 2, .occupied 3 3,
      .occupied 4 4, .occupied 5 5, .occupied 6 6, .occupied 7 7,
      .occupied 8 8, .occupied 9 9, .occupied 10 10, .occupied 11 11,
      .empty, .empty, .empty, .empty], size := 12, capacity := 16 }

theorem nextPow2Go_pow2 (n : Nat) :
    ∀ fuel j, ∃ m, nextPow2Go n fuel (2 ^ j) = 2 ^ m := by
  intro fuel
  induction fuel with
  | zero => intro j; exact ⟨j, rfl⟩
  | succ f ih =>
    intro j
    rw [nextPow2Go]
    by_cases hlt : 2 ^ j < n
    · rw [if_pos hlt]
      obtain ⟨m, hm⟩ := ih (j + 1)
      rw [Nat.pow_succ] at hm
      exact ⟨m, hm⟩
    · rw [if_neg hlt]
      exact ⟨j, rfl⟩

theorem nextPow2_pow2 (n : Nat) : ∃ m, nextPow2 n = 2 ^ m := by
  have hgo := nextPow2Go_pow2 n n 0
  simpa [nextPow2] using hgo

/-- The resize branch of `insertF` is exactly `resizeF` at the next smaller
fuel, matching the source's mutual `insert`/`resize` recursion. -/
theorem insertF_succ (h : K → Nat) (fuel : Nat)
    (t : OpenAddressingHashTable K V) (key : K) (value : V) :
    insertF h (fuel + 1) t key value =
      match (if should_resize t then resizeF h fuel t else some t) with
      | none => none
      | some t1 => insertGo h key value t1 t1.capacity 0 := rfl

theorem getD_set_self {α : Type} (l : List α) (i : Nat) (a d : α)
    (hi : i < l.length) : (l.set i a).getD i d = a := by
  induction l generalizing i with
  | nil => simp at hi
  | cons x xs ih =>
    cases i with
    | zero => simp
    | succ n =>
      simp only [List.set_cons_succ, List.getD_cons_succ]
      exact ih n (by simpa using hi)

theorem getD_set_ne {α : Type} (l : List α) (i j : Nat) (a d : α)
    (hne : i ≠ j) : (l.set i a).getD j d = l.getD j d := by
  induction l generalizing i j with
  | nil => simp
  | cons x xs ih =>
    cases i with
    | zero =>
      cases j with
      | zero => exact absurd rfl hne
      | succ n => simp
    | succ m =>
      cases j with
      | zero => simp
      | succ n =>
        simp only [List.set_cons_succ, List.getD_cons_succ]
        exact ih m n (by omega)

theorem getD_replicate {α : Type} (n i : Nat) (x d : α) (hi : i < n) :
    (List.replicate n x).getD i d = x := by
  induction n generalizing i with
  | zero => omega
  | succ m ih =>
    cases i with
    | zero => simp [List.replicate]
    | succ j =>
      simp only [List.replicate, List.getD_cons_succ]
      exact ih j (by omega)

theorem getD_mem {α : Type} (l : List α) (i : Nat) (d : α)
    (hi : i < l.length) : l.getD i d ∈ l := by
  induction l generalizing i with
  | nil => simp at hi
  | cons x xs ih =>
    cases i with
    | zero => simp
    | succ n =>
      simp only [List.getD_cons_succ]
      exact List.mem_cons_of_mem x (ih n (by simpa using hi))

theorem mem_getD {α : Type} {l : List α} {x : α} (hx : x ∈ l) (d : α) :
    ∃ i, i < l.length ∧ l.getD i d = x := by
  induction l with
  | nil => simp at hx
  | cons y ys ih =>
    rcases List.mem_cons.mp hx with rfl | hmem
    · exact ⟨0, by simp, by simp⟩
    · obtain ⟨i, hi, hget⟩ := ih hmem
      exact ⟨i + 1, by simpa using Nat.succ_lt_succ hi, by simpa using hget⟩

theorem occupiedCount_cons (e : Entry K V) (l : List (Entry K V)) :
    occupiedCount (e :: l) = occupiedCount l + occBit e := by
  simp [occupiedCount, occBit, List.countP_cons]

theorem occupiedCount_set (l : List (Entry K V)) (i : Nat) (e : Entry K V)
    (hi : i < l.length) :
    occupiedCount (l.set i e) + occBit (l.getD i .empty) =
      occupiedCount l + occBit e := by
  induction l generalizing i with
  | nil => simp at hi
  | cons x xs ih =>
    cases i with
    | zero => simp [occupiedCount_cons]; omega
    | succ n =>
      simp only [List.set_cons_succ, List.getD_cons_succ, occupiedCount_cons]
      have := ih n (by simpa using hi)
      omega

theorem occupiedCount_le_length (l : List (Entry K V)) :
    occupiedCount l ≤ l.length :=
  List.countP_le_length _

theorem occupiedCount_replicate_empty (n : Nat) :
    occupiedCount (List.replicate n (Entry.empty : Entry K V)) = 0 := by
  induction n with
  | zero => rfl
  | succ m ih => simp [List.replicate, occupiedCount_cons, ih, occBit, isOccupied]

theorem occPairs_length (l : List (Entry K V)) :
    (occPairs l).length = occupiedCount l := by
  induction l with
  | nil => rfl
  | cons e rest ih =>
    cases e <;> simp [occPairs, occupiedCount_cons, occBit, isOccupied, ih]

theorem mem_occPairs (l : List (Entry K V)) (k : K) (v : V) :
    (k, v) ∈ occPairs l ↔ Entry.occupied k v ∈ l := by
  induction l with
  | nil => simp [occPairs]
  | cons e rest ih =>
    cases e with
    | occupied k' v' =>
      simp only [occPairs, List.mem_cons, ih, Prod.mk.injEq, Entry.occupied.injEq]
    | deleted => simp [occPairs, ih]
    | empty => simp [occPairs, ih]

theorem assocFind_append (P Q : List (K × V)) (k : K) :
    assocFind (P ++ Q) k =
      match assocFind P k with
      | some v => some v
      | none => assocFind Q k := by
  induction P with
  | nil => simp [assocFind]
  | cons p rest ih =>
    obtain ⟨k', v⟩ := p
    by_cases hk : k' = k <;> simp [assocFind, hk, ih]

theorem assocFind_eq_none (P : List (K × V)) (k : K)
    (hk : k ∉ P.map Prod.fst) : assocFind P k = none := by
  induction P with
  | nil => rfl
  | cons p rest ih =>
    obtain ⟨k', v⟩ := p
    simp only [List.map_cons, List.mem_cons] at hk
    push_neg at hk
    simp only [assocFind, if_neg (Ne.symm hk.1)]
    exact ih hk.2

theorem assocFind_eq_some (P : List (K × V)) (k : K) (v : V)
    (hnd : (P.map Prod.fst).Nodup) (hm : (k, v) ∈ P) :
    assocFind P k = some v := by
  induction P with
  | nil => simp at hm
  | cons p rest ih =>
    obtain ⟨k', v'⟩ := p
    simp only [List.map_cons, List.nodup_cons] at hnd
    rcases List.mem_cons.mp hm with heq | hmem
    · obtain ⟨rfl, rfl⟩ := Prod.mk.injEq .. ▸ heq
      simp [assocFind]
    · have hk : k' ≠ k := by
        rintro rfl
        exact hnd.1 (List.mem_map.mpr ⟨(k', v), hmem, rfl⟩)
      simp only [assocFind, if_neg hk]
      exact ih hnd.2 hmem

theorem hash_key_lt (h : K → Nat) (t : OpenAddressingHashTable K V) (key : K)
    (probe : Nat) (hc : 0 < t.capacity) : hash_key h t key probe < t.capacity :=
  lt_of_le_of_lt Nat.and_le_right (by omega)

theorem hash_key_eq_mod (h : K → Nat) (t : OpenAddressingHashTable K V)
    (key : K) (probe : Nat) {m : Nat} (hm : t.capacity = 2 ^ m) :
    hash_key h t key probe = (h key + probe) % t.capacity := by
  unfold hash_key
  rw [hm]
  exact Nat.and_pow_two_sub_one_eq_mod _ m

theorem probe_index_inj {c i j a : Nat} (hi : i < c) (hj : j < c)
    (hij : (a + i) % c = (a + j) % c) : i = j := by
  have hmod : i % c = j % c := Nat.ModEq.add_left_cancel' a hij
  rwa [Nat.mod_eq_of_lt hi, Nat.mod_eq_of_lt hj] at hmod

theorem exists_probe_offset {c i : Nat} (hc : 0 < c) (hi : i < c) (a : Nat) :
    ∃ d, d < c ∧ (a + d) % c = i := by
  have hr : a % c < c := Nat.mod_lt a hc
  by_cases hcase : a % c ≤ i
  · refine ⟨i - a % c, by omega, ?_⟩
    rw [Nat.add_mod, Nat.mod_eq_of_lt (show i - a % c < c by omega),
      show a % c + (i - a % c) = i by omega, Nat.mod_eq_of_lt hi]
  · refine ⟨c + i - a % c, by omega, ?_⟩
    rw [Nat.add_mod, Nat.mod_eq_of_lt (show c + i - a % c < c by omega),
      show a % c + (c + i - a % c) = c + i by omega, Nat.add_mod_left,
      Nat.mod_eq_of_lt hi]

theorem getGo_spec (h : K → Nat) (key : K) (t : OpenAddressingHashTable K V)
    (v : V) : ∀ fuel probe, getGo h key t fuel probe = some v ↔
      ∃ i, i < fuel ∧
        t.table.getD (hash_key h t key (probe + i)) .empty =
          .occupied key v ∧
        ∀ j, j < i →
          isSkip (t.table.getD (hash_key h t key (probe + j)) .empty) key =
            true := by
  intro fuel
  induction fuel with
  | zero => intro probe; simp [getGo]
  | succ f ih =>
    intro probe
    cases hslot : t.table.getD (hash_key h t key probe) .empty with
    | occupied ek ev =>
      rw [getGo]
      simp only [hslot]
      by_cases hek : ek = key
      · subst hek
        constructor
        · intro hv
          rw [if_pos rfl] at hv
          obtain rfl : ev = v := by injection hv
          refine ⟨0, by omega, by simpa using hslot,
            fun j hj => absurd hj (by omega)⟩
        · rintro ⟨i, hi, hocc, hskip⟩
          rw [if_pos rfl]
          cases i with
          | zero =>
            rw [Nat.add_zero, hslot] at hocc
            injection hocc with _ hv
            rw [hv]
          | succ n =>
            have hs := hskip 0 (by omega)
            rw [Nat.add_zero, hslot] at hs
            simp [isSkip] at hs
      · simp only [if_neg hek, ih (probe + 1)]
        constructor
        · rintro ⟨i, hi, hocc, hskip⟩
          refine ⟨i + 1, by omega, ?_, ?_⟩
          · rw [show probe + (i + 1) = probe + 1 + i by omega]
            exact hocc
          · intro j hj
            cases j with
            | zero =>
              rw [Nat.add_zero, hslot]
              simp [isSkip, hek]
            | succ jj =>
              rw [show probe + (jj + 1) = probe + 1 + jj by omega]
              exact hskip jj (by omega)
        · rintro ⟨i, hi, hocc, hskip⟩
          cases i with
          | zero =>
            rw [Nat.add_zero, hslot] at hocc
            injection hocc with hk _
            exact absurd hk hek
          | succ n =>
            refine ⟨n, by omega, ?_, ?_⟩
            · rw [show probe + 1 + n = probe + (n + 1) by omega]
              exact hocc
            · intro j hj
              rw [show probe + 1 + j = probe + (j + 1) by omega]
              exact hskip (j + 1) (by omega)
    | empty =>
      rw [getGo]
      simp only [hslot]
      constructor
      · intro hv; cases hv
      · rintro ⟨i, hi, hocc, hskip⟩
        cases i with
        | zero =>
          rw [Nat.add_zero, hslot] at hocc
          cases hocc
        | succ n =>
          have hs := hskip 0 (by omega)
          rw [Nat.add_zero, hslot] at hs
          simp [isSkip] at hs
    | deleted =>
      rw [getGo]
      simp only [hslot, ih (probe + 1)]
      constructor
      · rintro ⟨i, hi, hocc, hskip⟩
        refine ⟨i + 1, by omega, ?_, ?_⟩
        · rw [show probe + (i + 1) = probe + 1 + i by omega]
          exact hocc
        · intro j hj
          cases j with
          | zero =>
            rw [Nat.add_zero, hslot]
            simp [isSkip]
          | succ jj =>
            rw [show probe + (jj + 1) = probe + 1 + jj by omega]
            exact hskip jj (by omega)
      · rintro ⟨i, hi, hocc, hskip⟩
        cases i with
        | zero =>
          rw [Nat.add_zero, hslot] at hocc
          cases hocc
        | succ n =>
          refine ⟨n, by omega, ?_, ?_⟩
          · rw [show probe + 1 + n = probe + (n + 1) by omega]
            exact hocc
          · intro j hj
            rw [show probe + 1 + j = probe + (j + 1) by omega]
            exact hskip (j + 1) (by omega)

theorem get_spec_some (h : K → Nat) (t : OpenAddressingHashTable K V)
    (key : K) (v : V) {m : Nat} (hm : t.capacity = 2 ^ m) :
    get h t key = some v ↔ ∃ i, i < t.capacity ∧
      slotAt t ((h key + i) % t.capacity) = .occupied key v ∧
      ∀ j, j < i →
        isSkip (slotAt t ((h key + j) % t.capacity)) key = true := by
  unfold get slotAt
  rw [getGo_spec]
  simp only [show ∀ p, hash_key h t key p = (h key + p) % t.capacity from
    fun p => hash_key_eq_mod h t key p hm, Nat.zero_add]

theorem get_spec_none (h : K → Nat) (t : OpenAddressingHashTable K V)
    (key : K) {m : Nat} (hm : t.capacity = 2 ^ m) :
    get h t key = none ↔ ¬ ∃ v i, i < t.capacity ∧
      slotAt t ((h key + i) % t.capacity) = .occupied key v ∧
      ∀ j, j < i →
        isSkip (slotAt t ((h key + j) % t.capacity)) key = true := by
  constructor
  · rintro hg ⟨v, hv⟩
    have hsome := (get_spec_some h t key v hm).mpr hv
    rw [hg] at hsome
    cases hsome
  · intro hno
    cases hg : get h t key with
    | none => rfl
    | some v =>
      exact absurd ⟨v, (get_spec_some h t key v hm).mp hg⟩ hno

/-- A table with no slot containing `key` always misses. -/
theorem get_eq_none_of_not_mem (h : K → Nat) (t : OpenAddressingHashTable K V)
    (key : K) {m : Nat} (hm : t.capacity = 2 ^ m)
    (habs : ∀ i v, i < t.capacity → slotAt t i ≠ .occupied key v) :
    get h t key = none := by
  rw [get_spec_none h t key hm]
  rintro ⟨v, i, hi, hocc, -⟩
  have hlt : (h key + i) % t.capacity < t.capacity :=
    Nat.mod_lt _ (by rw [hm]; positivity)
  exact habs _ v hlt hocc

theorem exists_not_occupied_of_count_lt (l : List (Entry K V))
    (hcnt : occupiedCount l < l.length) :
    ∃ i, i < l.length ∧ isOccupied (l.getD i .empty) = false := by
  induction l with
  | nil => simp at hcnt
  | cons e rest ih =>
    cases hocc : isOccupied e with
    | false => exact ⟨0, by simp, by simpa using hocc⟩
    | true =>
      rw [occupiedCount_cons, occBit, hocc, if_pos rfl, List.length_cons]
        at hcnt
      obtain ⟨i, hi, hfree⟩ := ih (by omega)
      exact ⟨i + 1, by simpa using Nat.succ_lt_succ hi, by simpa using hfree⟩

theorem occOther_eq_false_of_not_occupied {e : Entry K V} {k : K}
    (he : isOccupied e = false) : occOther e k = false := by
  cases e <;> simp_all [isOccupied, occOther]

theorem insertGo_props (h : K → Nat) (key : K) (value : V) :
    ∀ (t : OpenAddressingHashTable K V) fuel probe r t',
      insertGo h key value t fuel probe = some (r, t') →
      t'.capacity = t.capacity ∧ t'.table.length = t.table.length ∧
      t.size ≤ t'.size ∧ t'.size ≤ t.size + 1 ∧
      (t.table.length = t.capacity → 0 < t.capacity →
        t.size = occupiedCount t.table →
        t'.size = occupiedCount t'.table) := by
  intro t fuel
  induction fuel with
  | zero => intro probe r t' hins; cases hins
  | succ f ih =>
    intro probe r t' hins
    cases hslot : t.table.getD (hash_key h t key probe) .empty with
    | empty =>
      rw [insertGo] at hins
      simp only [hslot] at hins
      simp only [Option.some.injEq, Prod.mk.injEq] at hins
      obtain ⟨rfl, rfl⟩ := hins
      refine ⟨rfl, by simp, by simp, by simp, ?_⟩
      intro hlen hpos hsz
      have hidx : hash_key h t key probe < t.table.length := by
        rw [hlen]; exact hash_key_lt h t key probe hpos
      have hcount := occupiedCount_set t.table (hash_key h t key probe)
        (.occupied key value) hidx
      rw [hslot] at hcount
      simp [occBit, isOccupied] at hcount
      simp only []
      omega
    | deleted =>
      rw [insertGo] at hins
      simp only [hslot] at hins
      simp only [Option.some.injEq, Prod.mk.injEq] at hins
      obtain ⟨rfl, rfl⟩ := hins
      refine ⟨rfl, by simp, by simp, by simp, ?_⟩
      intro hlen hpos hsz
      have hidx : hash_key h t key probe < t.table.length := by
        rw [hlen]; exact hash_key_lt h t key probe hpos
      have hcount := occupiedCount_set t.table (hash_key h t key probe)
        (.occupied key value) hidx
      rw [hslot] at hcount
      simp [occBit, isOccupied] at hcount
      simp only []
      omega
    | occupied ek ev =>
      rw [insertGo] at hins
      simp only [hslot] at hins
      by_cases hek : ek = key
      · rw [if_pos hek] at hins
        simp only [Option.some.injEq, Prod.mk.injEq] at hins
        obtain ⟨rfl, rfl⟩ := hins
        refine ⟨rfl, by simp, by simp, by simp, ?_⟩
        intro hlen hpos hsz
        have hidx : hash_key h t key probe < t.table.length := by
          rw [hlen]; exact hash_key_lt h t key probe hpos
        have hcount := occupiedCount_set t.table (hash_key h t key probe)
          (.occupied ek value) hidx
        rw [hslot] at hcount
        simp [occBit, isOccupied] at hcount
        simp only []
        omega
      · rw [if_neg hek] at hins
        exact ih (probe + 1) r t' hins

theorem insertGo_ne_none (h : K → Nat) (key : K) (value : V)
    (t : OpenAddressingHashTable K V) :
    ∀ fuel probe,
      (∃ d, d < fuel ∧
        occOther (t.table.getD (hash_key h t key (probe + d)) .empty) key =
          false) →
      insertGo h key value t fuel probe ≠ none := by
  intro fuel
  induction fuel with
  | zero => rintro probe ⟨d, hd, -⟩; omega
  | succ f ih =>
    rintro probe ⟨d, hd, hfree⟩
    intro hnone
    cases hslot : t.table.getD (hash_key h t key probe) .empty with
    | empty =>
      rw [insertGo] at hnone
      simp only [hslot] at hnone
      exact Option.noConfusion hnone
    | deleted =>
      rw [insertGo] at hnone
      simp only [hslot] at hnone
      exact Option.noConfusion hnone
    | occupied ek ev =>
      rw [insertGo] at hnone
      simp only [hslot] at hnone
      by_cases hek : ek = key
      · rw [if_pos hek] at hnone; cases hnone
      · rw [if_neg hek] at hnone
        cases d with
        | zero =>
          rw [Nat.add_zero, hslot] at hfree
          simp [occOther, hek] at hfree
        | succ dd =>
          refine ih (probe + 1) ⟨dd, by omega, ?_⟩ hnone
          rw [show probe + 1 + dd = probe + (dd + 1) by omega]
          exact hfree

theorem insertGo_total (h : K → Nat) (key : K) (value : V)
    (t : OpenAddressingHashTable K V)
    (hl : t.table.length = t.capacity) {m : Nat} (hm : t.capacity = 2 ^ m)
    (hcnt : occupiedCount t.table < t.capacity) :
    insertGo h key value t t.capacity 0 ≠ none := by
  obtain ⟨i, hi, hfree⟩ :=
    exists_not_occupied_of_count_lt t.table (by omega)
  rw [hl] at hi
  have hpos : 0 < t.capacity := by omega
  obtain ⟨d, hd, hmod⟩ := exists_probe_offset hpos hi (h key)
  refine insertGo_ne_none h key value t t.capacity 0 ⟨d, hd, ?_⟩
  rw [hash_key_eq_mod h t key _ hm, Nat.zero_add, hmod]
  exact occOther_eq_false_of_not_occupied hfree

theorem removeGo_props (h : K → Nat) (key : K) :
    ∀ (t : OpenAddressingHashTable K V) fuel probe r t',
      removeGo h key t fuel probe = (r, t') →
      t'.capacity = t.capacity ∧ t'.table.length = t.table.length ∧
      (r = none → t' = t) ∧
      (t.table.length = t.capacity → 0 < t.capacity →
        t.size = occupiedCount t.table →
        t'.size = occupiedCount t'.table) := by
  intro t fuel
  induction fuel with
  | zero =>
    intro probe r t' hrem
    rw [removeGo] at hrem
    simp only [Prod.mk.injEq] at hrem
    obtain ⟨rfl, rfl⟩ := hrem
    exact ⟨rfl, rfl, fun _ => rfl, fun _ _ hsz => hsz⟩
  | succ f ih =>
    intro probe r t' hrem
    cases hslot : t.table.getD (hash_key h t key probe) .empty with
    | empty =>
      rw [removeGo] at hrem
      simp only [hslot] at hrem
      simp only [Prod.mk.injEq] at hrem
      obtain ⟨rfl, rfl⟩ := hrem
      exact ⟨rfl, rfl, fun _ => rfl, fun _ _ hsz => hsz⟩
    | deleted =>
      rw [removeGo] at hrem
      simp only [hslot] at hrem
      exact ih (probe + 1) r t' hrem
    | occupied ek ev =>
      rw [removeGo] at hrem
      simp only [hslot] at hrem
      by_cases hek : ek = key
      · rw [if_pos hek] at hrem
        simp only [Prod.mk.injEq] at hrem
        obtain ⟨rfl, rfl⟩ := hrem
        refine ⟨rfl, by simp, ?_, ?_⟩
        · intro hc; exact Option.noConfusion hc
        intro hlen hpos hsz
        have hidx : hash_key h t key probe < t.table.length := by
          rw [hlen]; exact hash_key_lt h t key probe hpos
        have hcount := occupiedCount_set t.table (hash_key h t key probe)
          .deleted hidx
        rw [hslot] at hcount
        simp [occBit, isOccupied] at hcount
        simp only []
        omega
      · rw [if_neg hek] at hrem
        exact ih (probe + 1) r t' hrem

theorem insertF_eq_insertGo (h : K → Nat) (fuel : Nat)
    (t : OpenAddressingHashTable K V) (key : K) (value : V)
    (hsr : should_resize t = false) :
    insertF h fuel t key value = insertGo h key value t t.capacity 0 := by
  cases fuel with
  | zero =>
    rw [insertF, hsr]
    simp
  | succ f =>
    rw [insertF_succ, hsr]
    simp

theorem reinsertAll_spec (h : K → Nat) (fuel oldcap : Nat) :
    ∀ (l : List (Entry K V)) (acc : OpenAddressingHashTable K V),
      acc.capacity = 2 * oldcap → 0 < oldcap →
      (∃ m, acc.capacity = 2 ^ m) →
      acc.table.length = acc.capacity →
      acc.size = occupiedCount acc.table →
      acc.size + occupiedCount l ≤ oldcap →
      ∃ out, reinsertWith (insertF h fuel) l acc = some out ∧
        out.capacity = acc.capacity ∧ out.table.length = out.capacity ∧
        out.size = occupiedCount out.table ∧
        out.size ≤ acc.size + occupiedCount l := by
  intro l
  induction l with
  | nil =>
    intro acc h1 h2 h3 h4 h5 h6
    exact ⟨acc, by rw [reinsertWith], rfl, h4, h5, by omega⟩
  | cons e rest ih =>
    intro acc hcap hpos hpow hlen hsz hbound
    cases e with
    | occupied k v =>
      rw [occupiedCount_cons] at hbound
      simp [occBit, isOccupied] at hbound
      have hsmall : acc.size < oldcap := by omega
      have hsr : should_resize acc = false := by
        unfold should_resize
        rw [decide_eq_false_iff_not]
        omega
      have hcnt : occupiedCount acc.table < acc.capacity := by omega
      obtain ⟨m2, hm2⟩ := hpow
      have hne := insertGo_total h k v acc hlen hm2 hcnt
      rw [← insertF_eq_insertGo h fuel acc k v hsr] at hne
      cases hins : insertF h fuel acc k v with
      | none => exact absurd hins hne
      | some p =>
        obtain ⟨r, acc'⟩ := p
        rw [insertF_eq_insertGo h fuel acc k v hsr] at hins
        obtain ⟨hc, hl, hs1, hs2, hcount⟩ :=
          insertGo_props h k v acc acc.capacity 0 r acc' hins
        have hwf' := hcount hlen (by omega) hsz
        obtain ⟨out, hout, o1, o2, o3, o4⟩ := ih acc'
          (by omega) hpos ⟨m2, by rw [hc, hm2]⟩ (by omega) hwf'
          (by omega)
        refine ⟨out, ?_, by omega, o2, o3, ?_⟩
        · rw [reinsertWith]
          rw [← insertF_eq_insertGo h fuel acc k v hsr] at hins
          simp only [hins]
          exact hout
        · rw [occupiedCount_cons]
          simp [occBit, isOccupied]
          omega
    | deleted =>
      rw [occupiedCount_cons] at hbound
      simp [occBit, isOccupied] at hbound
      obtain ⟨out, hout, o1, o2, o3, o4⟩ :=
        ih acc hcap hpos hpow hlen hsz (by omega)
      refine ⟨out, by rw [reinsertWith]; exact hout, o1, o2, o3, ?_⟩
      rw [occupiedCount_cons]
      simp [occBit, isOccupied]
      omega
    | empty =>
      rw [occupiedCount_cons] at hbound
      simp [occBit, isOccupied] at hbound
      obtain ⟨out, hout, o1, o2, o3, o4⟩ :=
        ih acc hcap hpos hpow hlen hsz (by omega)
      refine ⟨out, by rw [reinsertWith]; exact hout, o1, o2, o3, ?_⟩
      rw [occupiedCount_cons]
      simp [occBit, isOccupied]
      omega

theorem resizeF_spec (h : K → Nat) (fuel : Nat)
    (t : OpenAddressingHashTable K V) (hwf : Wf t) :
    ∃ out, resizeF h fuel t = some out ∧
      out.capacity = 2 * t.capacity ∧ out.table.length = out.capacity ∧
      out.size = occupiedCount out.table ∧ out.size ≤ t.capacity := by
  obtain ⟨m, hm⟩ := hwf.pow2
  have hpos : 0 < t.capacity := by rw [hm]; positivity
  obtain ⟨out, hout, o1, o2, o3, o4⟩ := reinsertAll_spec h fuel t.capacity
    t.table
    { table := List.replicate (t.capacity * 2) .empty, size := 0,
      capacity := t.capacity * 2 }
    (by simp [Nat.mul_comm]) hpos
    ⟨m + 1, by show t.capacity * 2 = 2 ^ (m + 1); rw [hm, Nat.pow_succ]⟩
    (by simp) (by simp [occupiedCount_replicate_empty])
    (by
      have hle := occupiedCount_le_length t.table
      rw [hwf.len_eq] at hle
      simpa using hle)
  refine ⟨out, ?_, ?_, o2, o3, ?_⟩
  · exact hout
  · rw [o1]
    exact Nat.mul_comm t.capacity 2
  · have hb : out.size ≤ 0 + occupiedCount t.table := o4
    have hle := occupiedCount_le_length t.table
    rw [hwf.len_eq] at hle
    omega

theorem wf_with_capacity (c : Nat) :
    Wf (with_capacity c : OpenAddressingHashTable K V) := by
  refine ⟨by simp [with_capacity], ?_, ?_⟩
  · obtain ⟨m, hm⟩ := nextPow2_pow2 c
    exact ⟨m, by simpa [with_capacity] using hm⟩
  · simp [with_capacity, occupiedCount_replicate_empty]

theorem capacity_pos_of_wf {t : OpenAddressingHashTable K V} (hwf : Wf t) :
    0 < t.capacity := by
  obtain ⟨m, hm⟩ := hwf.pow2
  rw [hm]
  positivity

theorem insertF_mid (h : K → Nat) (fuel : Nat)
    (t : OpenAddressingHashTable K V) (key : K) (value : V) (r : Option V)
    (t' : OpenAddressingHashTable K V) (hwf : Wf t)
    (hins : insertF h fuel t key value = some (r, t')) :
    ∃ t1, insertGo h key value t1 t1.capacity 0 = some (r, t') ∧ Wf t1 ∧
      10 * t1.size ≤ 7 * t1.capacity ∧ t.capacity ≤ t1.capacity := by
  cases hsr : should_resize t with
  | false =>
    rw [insertF_eq_insertGo h fuel t key value hsr] at hins
    refine ⟨t, hins, hwf, ?_, le_refl _⟩
    unfold should_resize at hsr
    rw [decide_eq_false_iff_not] at hsr
    omega
  | true =>
    cases fuel with
    | zero =>
      rw [insertF, hsr] at hins
      simp at hins
    | succ f =>
      rw [insertF_succ, hsr] at hins
      simp only [if_true] at hins
      obtain ⟨out, hout, o1, o2, o3, o4⟩ := resizeF_spec h f t hwf
      rw [hout] at hins
      simp only [] at hins
      refine ⟨out, hins, ⟨o2, ?_, o3⟩, by omega, by omega⟩
      obtain ⟨m, hm⟩ := hwf.pow2
      exact ⟨m + 1, by rw [o1, hm, Nat.pow_succ, Nat.mul_comm]⟩

theorem insertF_wf (h : K → Nat) (fuel : Nat)
    (t : OpenAddressingHashTable K V) (key : K) (value : V) (r : Option V)
    (t' : OpenAddressingHashTable K V) (hwf : Wf t)
    (hins : insertF h fuel t key value = some (r, t')) :
    Wf t' ∧ 10 * (t'.size - 1) ≤ 7 * t'.capacity := by
  obtain ⟨t1, hgo, hwf1, hload, -⟩ := insertF_mid h fuel t key value r t' hwf hins
  obtain ⟨hc, hl, hs1, hs2, hcount⟩ :=
    insertGo_props h key value t1 t1.capacity 0 r t' hgo
  have hpos1 : 0 < t1.capacity := capacity_pos_of_wf hwf1
  refine ⟨⟨by rw [hl, hwf1.len_eq, hc], by rw [hc]; exact hwf1.pow2,
    hcount hwf1.len_eq hpos1 hwf1.size_eq⟩, by omega⟩

theorem insertF_ne_none (h : K → Nat)
    (t : OpenAddressingHashTable K V) (key : K) (value : V) (hwf : Wf t) :
    ∀ fuel, 1 ≤ fuel → insertF h fuel t key value ≠ none := by
  intro fuel hfuel
  have hpos : 0 < t.capacity := capacity_pos_of_wf hwf
  cases hsr : should_resize t with
  | false =>
    rw [insertF_eq_insertGo h fuel t key value hsr]
    unfold should_resize at hsr
    rw [decide_eq_false_iff_not] at hsr
    obtain ⟨m, hm⟩ := hwf.pow2
    exact insertGo_total h key value t hwf.len_eq hm
      (by rw [← hwf.size_eq]; omega)
  | true =>
    cases fuel with
    | zero => omega
    | succ f =>
      rw [insertF_succ, hsr]
      simp only [if_true]
      obtain ⟨out, hout, o1, o2, o3, o4⟩ := resizeF_spec h f t hwf
      rw [hout]
      simp only []
      obtain ⟨m, hm⟩ := hwf.pow2
      refine insertGo_total h key value out o2
        (show out.capacity = 2 ^ (m + 1) by
          rw [o1, hm, Nat.pow_succ, Nat.mul_comm]) ?_
      rw [← o3]
      omega

theorem reachable_wf (h : K → Nat) (t : OpenAddressingHashTable K V)
    (ht : Reachable h t) : Wf t := by
  induction ht with
  | base c => exact wf_with_capacity c
  | insert_step ht hstep ih => exact (insertF_wf h 2 _ _ _ _ _ ih hstep).1
  | remove_step ht hstep ih =>
    obtain ⟨hc, hl, -, hcount⟩ := removeGo_props h _ _ _ 0 _ _ hstep
    exact ⟨by rw [hl, ih.len_eq, hc], by rw [hc]; exact ih.pow2,
      hcount ih.len_eq (capacity_pos_of_wf ih) ih.size_eq⟩
  | resize_step ht hstep ih =>
    obtain ⟨out, hout, o1, o2, o3, o4⟩ := resizeF_spec h 1 _ ih
    unfold resize at hstep
    rw [hout] at hstep
    injection hstep with heq
    rw [← heq]
    obtain ⟨m, hm⟩ := ih.pow2
    exact ⟨o2, ⟨m + 1, by rw [o1, hm, Nat.pow_succ, Nat.mul_comm]⟩, o3⟩

theorem isSkip_of_occOther {e : Entry K V} {k : K}
    (he : occOther e k = true) : isSkip e k = true := by
  cases e <;> simp_all [occOther, isSkip]

theorem occOther_elim {e : Entry K V} {k : K} (he : occOther e k = true) :
    ∃ ek ev, e = .occupied ek ev ∧ ek ≠ k := by
  cases e with
  | occupied ek ev =>
    refine ⟨ek, ev, rfl, ?_⟩
    simpa [occOther] using he
  | deleted => simp [occOther] at he
  | empty => simp [occOther] at he

theorem insertGo_cases (h : K → Nat) (key : K) (value : V)
    (t : OpenAddressingHashTable K V) :
    ∀ fuel probe r t', insertGo h key value t fuel probe = some (r, t') →
      ∃ d, d < fuel ∧
        (∀ e, e < d →
          occOther (t.table.getD (hash_key h t key (probe + e)) .empty) key =
            true) ∧
        ((∃ ek ev,
            t.table.getD (hash_key h t key (probe + d)) .empty =
              .occupied ek ev ∧ ek = key ∧ r = some ev ∧
            t' = { t with table := t.table.set (hash_key h t key (probe + d)) (.occupied ek value) }) ∨
         ((t.table.getD (hash_key h t key (probe + d)) .empty = .empty ∨
           t.table.getD (hash_key h t key (probe + d)) .empty = .deleted) ∧
          r = none ∧
          t' = { t with table := t.table.set (hash_key h t key (probe + d)) (.occupied key value), size := t.size + 1 })) := by
  intro fuel
  induction fuel with
  | zero => intro probe r t' hins; cases hins
  | succ f ih =>
    intro probe r t' hins
    cases hslot : t.table.getD (hash_key h t key probe) .empty with
    | empty =>
      rw [insertGo] at hins
      simp only [hslot, Option.some.injEq, Prod.mk.injEq] at hins
      obtain ⟨rfl, rfl⟩ := hins
      exact ⟨0, by omega, fun e he => absurd he (by omega),
        Or.inr ⟨Or.inl (by rwa [Nat.add_zero]), rfl, by simp⟩⟩
    | deleted =>
      rw [insertGo] at hins
      simp only [hslot, Option.some.injEq, Prod.mk.injEq] at hins
      obtain ⟨rfl, rfl⟩ := hins
      exact ⟨0, by omega, fun e he => absurd he (by omega),
        Or.inr ⟨Or.inr (by rwa [Nat.add_zero]), rfl, by simp⟩⟩
    | occupied ek ev =>
      rw [insertGo] at hins
      simp only [hslot] at hins
      by_cases hek : ek = key
      · rw [if_pos hek] at hins
        simp only [Option.some.injEq, Prod.mk.injEq] at hins
        obtain ⟨rfl, rfl⟩ := hins
        exact ⟨0, by omega, fun e he => absurd he (by omega),
          Or.inl ⟨ek, ev, by rwa [Nat.add_zero], hek, rfl, by simp⟩⟩
      · rw [if_neg hek] at hins
        obtain ⟨d, hd, hbefore, hcase⟩ := ih (probe + 1) r t' hins
        refine ⟨d + 1, by omega, ?_, ?_⟩
        · intro e he
          cases e with
          | zero =>
            rw [Nat.add_zero, hslot]
            simp [occOther, hek]
          | succ ee =>
            rw [show probe + (ee + 1) = probe + 1 + ee by omega]
            exact hbefore ee (by omega)
        · rw [show probe + (d + 1) = probe + 1 + d by omega]
          exact hcase

/-- Uniform description of a successful `insert` probe loop: exactly one
slot is overwritten, and it ends up `Occupied` with the inserted key and
value. -/
theorem insertGo_desc (h : K → Nat) (key : K) (value : V)
    (t : OpenAddressingHashTable K V) (r : Option V)
    (t' : OpenAddressingHashTable K V) (hpos : 0 < t.capacity)
    (hins : insertGo h key value t t.capacity 0 = some (r, t')) :
    ∃ idx, idx < t.capacity ∧ t'.capacity = t.capacity ∧
      t'.table = t.table.set idx (.occupied key value) ∧
      (t.table.getD idx .empty = .empty ∨
       t.table.getD idx .empty = .deleted ∨
       ∃ ev0, t.table.getD idx .empty = .occupied key ev0) := by
  obtain ⟨d, hd, -, hcase⟩ := insertGo_cases h key value t t.capacity 0 r t' hins
  simp only [Nat.zero_add] at hcase
  refine ⟨hash_key h t key d, hash_key_lt h t key d hpos, ?_⟩
  rcases hcase with ⟨ek, ev, hold, hekk, hr, ht'⟩ | ⟨hold, hr, ht'⟩
  · subst hekk
    subst ht'
    exact ⟨rfl, rfl, Or.inr (Or.inr ⟨ev, hold⟩)⟩
  · subst ht'
    rcases hold with hold | hold
    · exact ⟨rfl, rfl, Or.inl hold⟩
    · exact ⟨rfl, rfl, Or.inr (Or.inl hold)⟩

/-- After a successful probe-loop insert of `(key, value)`, `get key`
returns `value`. -/
theorem insertGo_get_self (h : K → Nat) (key : K) (value : V)
    (t : OpenAddressingHashTable K V) (r : Option V)
    (t' : OpenAddressingHashTable K V)
    (hl : t.table.length = t.capacity) {m : Nat} (hm : t.capacity = 2 ^ m)
    (hins : insertGo h key value t t.capacity 0 = some (r, t')) :
    get h t' key = some value := by
  have hpos : 0 < t.capacity := by rw [hm]; positivity
  obtain ⟨d, hd, hbefore, hcase⟩ :=
    insertGo_cases h key value t t.capacity 0 r t' hins
  simp only [Nat.zero_add] at hbefore hcase
  have hidx : ∀ p, hash_key h t key p = (h key + p) % t.capacity :=
    fun p => hash_key_eq_mod h t key p hm
  have hmain : t'.capacity = t.capacity ∧
      t'.table = t.table.set ((h key + d) % t.capacity)
        (.occupied key value) := by
    rcases hcase with ⟨ek, ev, hold, hekk, hr, ht'⟩ | ⟨hold, hr, ht'⟩ <;>
      [skip; skip] <;> first
      | (subst hekk; subst ht'; exact ⟨rfl, by rw [hidx d]⟩)
      | (subst ht'; exact ⟨rfl, by rw [hidx d]⟩)
  obtain ⟨hcap', htbl'⟩ := hmain
  have hm' : t'.capacity = 2 ^ m := by rw [hcap', hm]
  refine (get_spec_some h t' key value hm').mpr ⟨d, ?_, ?_, ?_⟩
  · omega
  · unfold slotAt
    rw [htbl', hcap']
    exact getD_set_self t.table _ _ _ (by rw [hl]; exact Nat.mod_lt _ hpos)
  · intro j hj
    unfold slotAt
    rw [htbl', hcap']
    have hne : (h key + d) % t.capacity ≠ (h key + j) % t.capacity := by
      intro hcontra
      have := probe_index_inj (show d < t.capacity by omega)
        (show j < t.capacity by omega) hcontra
      omega
    rw [getD_set_ne _ _ _ _ _ hne]
    have hb := hbefore j hj
    rw [hidx j] at hb
    exact isSkip_of_occOther hb

/-- A successful probe-loop insert of `key` does not change `get` for any
other key, provided every entry already stored was retrievable. -/
theorem insertGo_preserves_get_ne (h : K → Nat) (key : K) (value : V)
    (t : OpenAddressingHashTable K V) (r : Option V)
    (t' : OpenAddressingHashTable K V)
    (hl : t.table.length = t.capacity) {m : Nat} (hm : t.capacity = 2 ^ m)
    (hretr : AllRetrievable h t) (k' : K) (hne : k' ≠ key)
    (hins : insertGo h key value t t.capacity 0 = some (r, t')) :
    get h t' k' = get h t k' := by
  have hpos : 0 < t.capacity := by rw [hm]; positivity
  obtain ⟨idx, hidxlt, hcap', htbl', hold⟩ :=
    insertGo_desc h key value t r t' hpos hins
  have hm' : t'.capacity = 2 ^ m := by rw [hcap', hm]
  cases hg : get h t k' with
  | some v' =>
    obtain ⟨i, hi, hocc, hskips⟩ := (get_spec_some h t k' v' hm).mp hg
    refine (get_spec_some h t' k' v' hm').mpr ⟨i, ?_, ?_, ?_⟩
    · omega
    · unfold slotAt at hocc ⊢
      rw [hcap', htbl']
      have hx : (h k' + i) % t.capacity ≠ idx := by
        intro hcontra
        rw [hcontra] at hocc
        rcases hold with hold | hold | ⟨ev0, hold⟩ <;> rw [hold] at hocc
        · cases hocc
        · cases hocc
        · injection hocc with hk _
          exact hne hk.symm
      rw [getD_set_ne _ _ _ _ _ (Ne.symm hx)]
      exact hocc
    · intro j hj
      unfold slotAt at hskips ⊢
      rw [hcap', htbl']
      by_cases hx : (h k' + j) % t.capacity = idx
      · rw [hx, getD_set_self t.table _ _ _ (by omega)]
        simp only [isSkip, ne_eq, decide_eq_true_eq]
        exact fun hh => hne hh.symm
      · rw [getD_set_ne _ _ _ _ _ (Ne.symm hx)]
        exact hskips j hj
  | none =>
    cases hg' : get h t' k' with
    | none => rfl
    | some v'' =>
      obtain ⟨i, hi, hocc', -⟩ := (get_spec_some h t' k' v'' hm').mp hg'
      rw [hcap'] at hocc' hi
      unfold slotAt at hocc'
      rw [htbl'] at hocc'
      have hx : (h k' + i) % t.capacity ≠ idx := by
        intro hcontra
        rw [hcontra, getD_set_self t.table _ _ _ (by omega)] at hocc'
        injection hocc' with hk _
        exact hne hk.symm
      rw [getD_set_ne _ _ _ _ _ (Ne.symm hx)] at hocc'
      have := hretr ((h k' + i) % t.capacity) k' v''
        (by rw [hl]; exact Nat.mod_lt _ hpos) hocc'
      rw [hg] at this
      cases this

/-- Keys only appear at slots where `occOther` fails. -/
theorem removeGo_cases (h : K → Nat) (key : K)
    (t : OpenAddressingHashTable K V) :
    ∀ fuel probe r t', removeGo h key t fuel probe = (r, t') →
      (r = none ∧ t' = t) ∨
      ∃ v d, d < fuel ∧ r = some v ∧
        t.table.getD (hash_key h t key (probe + d)) .empty =
          .occupied key v ∧
        t' = { t with table := t.table.set (hash_key h t key (probe + d)) .deleted, size := t.size - 1 } := by
  intro fuel
  induction fuel with
  | zero =>
    intro probe r t' hrem
    rw [removeGo] at hrem
    simp only [Prod.mk.injEq] at hrem
    obtain ⟨rfl, rfl⟩ := hrem
    exact Or.inl ⟨rfl, rfl⟩
  | succ f ih =>
    intro probe r t' hrem
    cases hslot : t.table.getD (hash_key h t key probe) .empty with
    | empty =>
      rw [removeGo] at hrem
      simp only [hslot, Prod.mk.injEq] at hrem
      obtain ⟨rfl, rfl⟩ := hrem
      exact Or.inl ⟨rfl, rfl⟩
    | deleted =>
      rw [removeGo] at hrem
      simp only [hslot] at hrem
      rcases ih (probe + 1) r t' hrem with hl | ⟨v, d, hd, hr, hocc, ht'⟩
      · exact Or.inl hl
      · refine Or.inr ⟨v, d + 1, by omega, hr, ?_, ?_⟩
        · rw [show probe + (d + 1) = probe + 1 + d by omega]
          exact hocc
        · rw [show probe + (d + 1) = probe + 1 + d by omega]
          exact ht'
    | occupied ek ev =>
      rw [removeGo] at hrem
      simp only [hslot] at hrem
      by_cases hek : ek = key
      · rw [if_pos hek] at hrem
        simp only [Prod.mk.injEq] at hrem
        obtain ⟨rfl, rfl⟩ := hrem
        subst hek
        refine Or.inr ⟨ev, 0, by omega, rfl, by rwa [Nat.add_zero], by simp⟩
      · rw [if_neg hek] at hrem
        rcases ih (probe + 1) r t' hrem with hl | ⟨v, d, hd, hr, hocc, ht'⟩
        · exact Or.inl hl
        · refine Or.inr ⟨v, d + 1, by omega, hr, ?_, ?_⟩
          · rw [show probe + (d + 1) = probe + 1 + d by omega]
            exact hocc
          · rw [show probe + (d + 1) = probe + 1 + d by omega]
            exact ht'

/-- If no slot stores `key`, the `remove` probe loop misses and leaves the
table untouched. -/
theorem removeGo_none_of_absent (h : K → Nat) (key : K)
    (t : OpenAddressingHashTable K V)
    (habs : ∀ i v, i < t.table.length →
      t.table.getD i .empty ≠ .occupied key v)
    (hl : t.table.length = t.capacity) (hpos : 0 < t.capacity) :
    ∀ fuel probe, removeGo h key t fuel probe = (none, t) := by
  intro fuel
  induction fuel with
  | zero => intro probe; rw [removeGo]
  | succ f ih =>
    intro probe
    cases hslot : t.table.getD (hash_key h t key probe) .empty with
    | empty => rw [removeGo]; simp only [hslot]
    | deleted =>
      rw [removeGo]
      simp only [hslot]
      exact ih (probe + 1)
    | occupied ek ev =>
      rw [removeGo]
      simp only [hslot]
      have hek : ¬ ek = key := by
        intro hcontra
        rw [hcontra] at hslot
        exact habs (hash_key h t key probe) ev
          (by rw [hl]; exact hash_key_lt h t key probe hpos) hslot
      rw [if_neg hek]
      exact ih (probe + 1)

/-- If every probed slot holds a different key, the `insert` probe loop
exhausts its fuel. -/
theorem insertGo_none_of_all_occOther (h : K → Nat) (key : K) (value : V)
    (t : OpenAddressingHashTable K V) :
    ∀ fuel probe,
      (∀ i, i < fuel →
        occOther (t.table.getD (hash_key h t key (probe + i)) .empty) key =
          true) →
      insertGo h key value t fuel probe = none := by
  intro fuel
  induction fuel with
  | zero => intro probe _; rw [insertGo]
  | succ f ih =>
    intro probe hall
    have h0 := hall 0 (by omega)
    rw [Nat.add_zero] at h0
    obtain ⟨ek, ev, hslot, hek⟩ := occOther_elim h0
    rw [insertGo]
    simp only [hslot]
    rw [if_neg hek]
    refine ih (probe + 1) ?_
    intro i hi
    rw [show probe + 1 + i = probe + (i + 1) by omega]
    exact hall (i + 1) (by omega)

/-- The probe loop of `insert` exhausts all `capacity` probes without
placing exactly when every probed slot is `Occupied` by a different key. -/
theorem insertGo_eq_none_iff (h : K → Nat) (key : K) (value : V)
    (t : OpenAddressingHashTable K V) {m : Nat} (hm : t.capacity = 2 ^ m) :
    insertGo h key value t t.capacity 0 = none ↔
      ∀ i, i < t.capacity →
        occOther (slotAt t ((h key + i) % t.capacity)) key = true := by
  have hpos : 0 < t.capacity := by rw [hm]; positivity
  constructor
  · intro hnone i hi
    by_contra hfree
    refine insertGo_ne_none h key value t t.capacity 0 ⟨i, hi, ?_⟩ hnone
    rw [hash_key_eq_mod h t key _ hm, Nat.zero_add]
    unfold slotAt at hfree
    exact Bool.eq_false_iff.mpr hfree
  · intro hall
    refine insertGo_none_of_all_occOther h key value t t.capacity 0 ?_
    intro i hi
    rw [hash_key_eq_mod h t key _ hm, Nat.zero_add]
    exact hall i hi

/-- If slot `p` of `key`'s probe sequence holds `key` and every earlier
probed slot holds a different key, the probe loop replaces the value in
place and returns the old one. -/
theorem insertGo_finds_occupied (h : K → Nat) (key : K) (value : V)
    (t : OpenAddressingHashTable K V) :
    ∀ p fuel probe, p < fuel →
      (∀ j, j < p →
        occOther (t.table.getD (hash_key h t key (probe + j)) .empty) key =
          true) →
      ∀ ev, t.table.getD (hash_key h t key (probe + p)) .empty =
          .occupied key ev →
      insertGo h key value t fuel probe =
        some (some ev, { t with table := t.table.set (hash_key h t key (probe + p)) (.occupied key value) }) := by
  intro p
  induction p with
  | zero =>
    intro fuel probe hp hbefore ev hocc
    rw [Nat.add_zero] at hocc
    obtain ⟨f, rfl⟩ : ∃ f, fuel = f + 1 := ⟨fuel - 1, by omega⟩
    rw [insertGo]
    simp only [hocc]
    simp
  | succ pp ih =>
    intro fuel probe hp hbefore ev hocc
    obtain ⟨f, rfl⟩ : ∃ f, fuel = f + 1 := ⟨fuel - 1, by omega⟩
    have h0 := hbefore 0 (by omega)
    rw [Nat.add_zero] at h0
    obtain ⟨ek, ev0, hslot, hek⟩ := occOther_elim h0
    rw [insertGo]
    simp only [hslot]
    rw [if_neg hek]
    rw [show probe + (pp + 1) = probe + 1 + pp by omega] at hocc ⊢
    refine ih f (probe + 1) (by omega) ?_ ev hocc
    intro j hj
    rw [show probe + 1 + j = probe + (j + 1) by omega]
    exact hbefore (j + 1) (by omega)

theorem assocFind_singleton_self (k : K) (v : V) :
    assocFind [(k, v)] k = some v := by
  simp [assocFind]

theorem assocFind_singleton_ne (k k' : K) (v : V) (hne : k ≠ k') :
    assocFind [(k, v)] k' = none := by
  simp [assocFind, hne]

theorem get_eq_assocFind_of_nodup (h : K → Nat)
    (t : OpenAddressingHashTable K V) (hwf : Wf t) (hnd : KeysNodup t)
    (hretr : AllRetrievable h t) (k : K) :
    get h t k = assocFind (occPairs t.table) k := by
  obtain ⟨m, hm⟩ := hwf.pow2
  have hpos := capacity_pos_of_wf hwf
  cases hg : get h t k with
  | some v =>
    obtain ⟨i, hi, hocc, -⟩ := (get_spec_some h t k v hm).mp hg
    unfold slotAt at hocc
    have hmem : Entry.occupied k v ∈ t.table := by
      rw [← hocc]
      exact getD_mem t.table _ _ (by rw [hwf.len_eq]; exact Nat.mod_lt _ hpos)
    exact (assocFind_eq_some (occPairs t.table) k v hnd
      ((mem_occPairs t.table k v).mpr hmem)).symm
  | none =>
    symm
    apply assocFind_eq_none
    intro hkmem
    obtain ⟨⟨k0, v⟩, hmemP, hfst⟩ := List.mem_map.mp hkmem
    obtain rfl : k0 = k := hfst
    have hmem := (mem_occPairs t.table k0 v).mp hmemP
    obtain ⟨i, hi, hget⟩ := mem_getD hmem Entry.empty
    have hsome := hretr i k0 v hi hget
    rw [hg] at hsome
    cases hsome

theorem reinsertAll_pres (h : K → Nat) (fuel oldcap : Nat) :
    ∀ (l : List (Entry K V)) (P : List (K × V))
      (acc : OpenAddressingHashTable K V),
      acc.capacity = 2 * oldcap → 0 < oldcap →
      (∃ m, acc.capacity = 2 ^ m) →
      acc.table.length = acc.capacity →
      acc.size = occupiedCount acc.table →
      acc.size ≤ P.length →
      P.length + (occPairs l).length ≤ oldcap →
      ((P ++ occPairs l).map Prod.fst).Nodup →
      AllRetrievable h acc →
      (∀ k, get h acc k = assocFind P k) →
      ∃ out, reinsertWith (insertF h fuel) l acc = some out ∧
        ∀ k, get h out k = assocFind (P ++ occPairs l) k := by
  intro l
  induction l with
  | nil =>
    intro P acc _ _ _ _ _ _ _ _ _ hget
    refine ⟨acc, by rw [reinsertWith], ?_⟩
    intro k
    simpa [occPairs] using hget k
  | cons e rest ih =>
    intro P acc hcap hpos hpow hlen hsz hszP hbound hnd hretr hget
    cases e with
    | deleted =>
      simp only [occPairs] at hbound hnd
      obtain ⟨out, hout, hget'⟩ :=
        ih P acc hcap hpos hpow hlen hsz hszP hbound hnd hretr hget
      refine ⟨out, by rw [reinsertWith]; exact hout, ?_⟩
      intro k
      simpa [occPairs] using hget' k
    | empty =>
      simp only [occPairs] at hbound hnd
      obtain ⟨out, hout, hget'⟩ :=
        ih P acc hcap hpos hpow hlen hsz hszP hbound hnd hretr hget
      refine ⟨out, by rw [reinsertWith]; exact hout, ?_⟩
      intro k
      simpa [occPairs] using hget' k
    | occupied k v =>
      simp only [occPairs, List.length_cons] at hbound hnd
      have hsize_lt : acc.size < oldcap := by omega
      have hsr : should_resize acc = false := by
        unfold should_resize
        rw [decide_eq_false_iff_not]
        omega
      obtain ⟨m2, hm2⟩ := hpow
      have hcnt : occupiedCount acc.table < acc.capacity := by omega
      have hne := insertGo_total h k v acc hlen hm2 hcnt
      cases hins : insertGo h k v acc acc.capacity 0 with
      | none => exact absurd hins hne
      | some p =>
        obtain ⟨r, acc'⟩ := p
        obtain ⟨hc, hl2, hs1, hs2, hcount⟩ :=
          insertGo_props h k v acc acc.capacity 0 r acc' hins
        have hkfresh : k ∉ P.map Prod.fst := by
          intro hkin
          rw [List.map_append, List.nodup_append] at hnd
          exact hnd.2.2 hkin (by simp)
        have hgetk : get h acc k = none := by
          rw [hget k]
          exact assocFind_eq_none P k hkfresh
        have hget'self : get h acc' k = some v :=
          insertGo_get_self h k v acc r acc' hlen hm2 hins
        have hget'ne : ∀ k'', k'' ≠ k → get h acc' k'' = get h acc k'' :=
          fun k'' hk'' =>
            insertGo_preserves_get_ne h k v acc r acc' hlen hm2 hretr k''
              hk'' hins
        have hretr' : AllRetrievable h acc' := by
          intro i k0 v0 hi hslot
          obtain ⟨idx, hidxlt, hcap2, htbl2, -⟩ :=
            insertGo_desc h k v acc r acc' (by omega) hins
          rw [htbl2] at hslot
          rw [htbl2, List.length_set] at hi
          by_cases hii : idx = i
          · subst hii
            rw [getD_set_self acc.table _ _ _ hi] at hslot
            injection hslot with hk0 hv0
            rw [← hk0, ← hv0]
            exact hget'self
          · rw [getD_set_ne _ _ _ _ _ hii] at hslot
            by_cases hkk : k0 = k
            · subst hkk
              have := hretr i k0 v0 hi hslot
              rw [hgetk] at this
              cases this
            · rw [hget'ne k0 hkk]
              exact hretr i k0 v0 hi hslot
        have hget2 : ∀ k'', get h acc' k'' = assocFind (P ++ [(k, v)]) k'' := by
          intro k''
          rw [assocFind_append]
          by_cases hkk : k'' = k
          · subst hkk
            rw [hget'self, assocFind_eq_none P k'' hkfresh,
              assocFind_singleton_self]
          · rw [hget'ne k'' hkk, hget k'']
            cases hP : assocFind P k'' with
            | some w => simp
            | none =>
              simp only []
              exact (assocFind_singleton_ne k k'' v
                (fun hh => hkk hh.symm)).symm
        obtain ⟨out, hout, hgetout⟩ := ih (P ++ [(k, v)]) acc'
          (by omega) hpos ⟨m2, by rw [hc, hm2]⟩ (by omega)
          (hcount hlen (by omega) hsz)
          (by rw [List.length_append, List.length_singleton]; omega)
          (by rw [List.length_append]; simp only [List.length_singleton]; omega)
          (by rw [List.append_assoc, List.singleton_append]; exact hnd)
          hretr' hget2
        refine ⟨out, ?_, ?_⟩
        · rw [reinsertWith]
          rw [← insertF_eq_insertGo h fuel acc k v hsr] at hins
          simp only [hins]
          exact hout
        · intro k''
          rw [hgetout k'']
          simp only [occPairs]
          rw [List.append_assoc, List.singleton_append]

theorem runOps_reachable (h : K → Nat) :
    ∀ (ops : List (Op K V)) (t t' : OpenAddressingHashTable K V),
      Reachable h t → runOps h ops t = some t' → Reachable h t' := by
  intro ops
  induction ops with
  | nil =>
    intro t t' ht hrun
    rw [runOps] at hrun
    injection hrun with heq
    rwa [← heq]
  | cons op rest ih =>
    intro t t' ht hrun
    cases op with
    | ins k v =>
      rw [runOps] at hrun
      cases hins : insert h t k v with
      | none => rw [hins] at hrun; cases hrun
      | some p =>
        obtain ⟨r, t1⟩ := p
        rw [hins] at hrun
        simp only [] at hrun
        exact ih t1 t' (Reachable.insert_step ht hins) hrun
    | del k =>
      rw [runOps] at hrun
      exact ih _ t' (Reachable.remove_step ht rfl) hrun

theorem with_capacity_capacity (c : Nat) :
    (with_capacity c : OpenAddressingHashTable K V).capacity = nextPow2 c :=
  rfl

theorem with_capacity_table (c : Nat) :
    (with_capacity c : OpenAddressingHashTable K V).table =
      List.replicate (nextPow2 c) .empty :=
  rfl

theorem should_resize_zero (t : OpenAddressingHashTable K V)
    (hsz : t.size = 0) : should_resize t = false := by
  unfold should_resize
  rw [decide_eq_false_iff_not, hsz]
  omega

theorem hash_key_congr (h : K → Nat) (t t' : OpenAddressingHashTable K V)
    (key : K) (p : Nat) (hc : t.capacity = t'.capacity) :
    hash_key h t key p = hash_key h t' key p := by
  unfold hash_key
  rw [hc]

/-- One-step placement: if the very first probed slot is free, `insert`'s
loop places the entry there. -/
theorem insertGo_place0 (h : K → Nat) (key : K) (value : V)
    (t : OpenAddressingHashTable K V) (hpos : 0 < t.capacity)
    (hslot : t.table.getD (hash_key h t key 0) .empty = .empty ∨
      t.table.getD (hash_key h t key 0) .empty = .deleted) :
    insertGo h key value t t.capacity 0 =
      some (none, { t with table := t.table.set (hash_key h t key 0) (.occupied key value), size := t.size + 1 }) := by
  obtain ⟨c, hc⟩ : ∃ c, t.capacity = c + 1 := ⟨t.capacity - 1, by omega⟩
  nth_rewrite 1 [hc]
  rw [insertGo]
  rcases hslot with hs | hs <;> simp only [hs]

/-- One-step removal: if the very first probed slot holds the key,
`remove`'s loop deletes it there. -/
theorem removeGo_found0 (h : K → Nat) (key : K) (v : V)
    (t : OpenAddressingHashTable K V) (hpos : 0 < t.capacity)
    (hslot : t.table.getD (hash_key h t key 0) .empty = .occupied key v) :
    removeGo h key t t.capacity 0 =
      (some v, { t with table := t.table.set (hash_key h t key 0) .deleted, size := t.size - 1 }) := by
  obtain ⟨c, hc⟩ : ∃ c, t.capacity = c + 1 := ⟨t.capacity - 1, by omega⟩
  nth_rewrite 1 [hc]
  rw [removeGo]
  simp only [hslot]
  simp

/-- One-step lookup: if the very first probed slot holds the key, `get`
returns its value. -/
theorem get_found0 (h : K → Nat) (key : K) (v : V)
    (t : OpenAddressingHashTable K V) (hpos : 0 < t.capacity)
    (hslot : t.table.getD (hash_key h t key 0) .empty = .occupied key v) :
    get h t key = some v := by
  obtain ⟨c, hc⟩ : ∃ c, t.capacity = c + 1 := ⟨t.capacity - 1, by omega⟩
  unfold get
  nth_rewrite 1 [hc]
  rw [getGo]
  simp only [hslot]
  simp

theorem reuse_chain (h : K → Nat) (c : Nat) (k1 k2 : K) (v1 v2 : V)
    (hcol : h k1 % (with_capacity c : OpenAddressingHashTable K V).capacity =
      h k2 % (with_capacity c : OpenAddressingHashTable K V).capacity) :
    runOps h [Op.ins k1 v1, Op.del k1, Op.ins k2 v2] (with_capacity c) =
      some (reuse3 h c k1 k2 v1 v2) := by
  obtain ⟨m, hm⟩ := nextPow2_pow2 c
  have hmcap : (with_capacity c : OpenAddressingHashTable K V).capacity =
      2 ^ m := hm
  have hpos : 0 < (with_capacity c : OpenAddressingHashTable K V).capacity := by
    rw [hmcap]
    positivity
  have hlen : (with_capacity c : OpenAddressingHashTable K V).table.length =
      (with_capacity c : OpenAddressingHashTable K V).capacity :=
    (wf_with_capacity c).len_eq
  have hslot0 : (with_capacity c : OpenAddressingHashTable K V).table.getD
      (hash_key h (with_capacity c : OpenAddressingHashTable K V) k1 0) .empty = .empty := by
    rw [with_capacity_table]
    refine getD_replicate _ _ _ _ ?_
    have hlt := hash_key_lt h (with_capacity c) k1 0 hpos
    rwa [with_capacity_capacity] at hlt
  have hins1 : insert h (with_capacity c) k1 v1 =
      some (none, reuse1 h c k1 v1) := by
    unfold insert
    rw [insertF_eq_insertGo h 2 _ k1 v1 (should_resize_zero _ rfl)]
    exact insertGo_place0 h k1 v1 _ hpos (Or.inl hslot0)
  have hslot1 : (reuse1 h c k1 v1).table.getD
      (hash_key h (reuse1 h c k1 v1) k1 0) .empty = .occupied k1 v1 := by
    show ((with_capacity c : OpenAddressingHashTable K V).table.set
      (hash_key h (with_capacity c : OpenAddressingHashTable K V) k1 0) (.occupied k1 v1)).getD
      (hash_key h (with_capacity c : OpenAddressingHashTable K V) k1 0) .empty = _
    exact getD_set_self _ _ _ _
      (by rw [hlen]; exact hash_key_lt h _ k1 0 hpos)
  have hrem2 : remove h (reuse1 h c k1 v1) k1 =
      (some v1, reuse2 h c k1 v1) := by
    unfold remove
    exact removeGo_found0 h k1 v1 _ hpos hslot1
  have hslot2 : (reuse2 h c k1 v1).table.getD
      (hash_key h (reuse2 h c k1 v1) k2 0) .empty = .deleted := by
    show ((reuse1 h c k1 v1).table.set
      (hash_key h (with_capacity c : OpenAddressingHashTable K V) k1 0) .deleted).getD
      (hash_key h (with_capacity c : OpenAddressingHashTable K V) k2 0) .empty = _
    have hP : hash_key h (with_capacity c : OpenAddressingHashTable K V) k2 0 =
        hash_key h (with_capacity c : OpenAddressingHashTable K V) k1 0 := by
      rw [hash_key_eq_mod h _ k2 0 hmcap, hash_key_eq_mod h _ k1 0 hmcap,
        Nat.add_zero, Nat.add_zero]
      exact hcol.symm
    rw [hP]
    refine getD_set_self _ _ _ _ ?_
    show _ < ((with_capacity c : OpenAddressingHashTable K V).table.set
      (hash_key h (with_capacity c : OpenAddressingHashTable K V) k1 0) (.occupied k1 v1)).length
    rw [List.length_set, hlen]
    exact hash_key_lt h _ k1 0 hpos
  have hins3 : insert h (reuse2 h c k1 v1) k2 v2 =
      some (none, reuse3 h c k1 k2 v1 v2) := by
    unfold insert
    rw [insertF_eq_insertGo h 2 _ k2 v2 (should_resize_zero _ rfl)]
    exact insertGo_place0 h k2 v2 _ hpos (Or.inr hslot2)
  rw [runOps, hins1]
  simp only []
  rw [runOps, hrem2]
  simp only []
  rw [runOps, hins3]
  simp only []
  rw [runOps]

theorem reuse3_get_k2 (h : K → Nat) (c : Nat) (k1 k2 : K) (v1 v2 : V) :
    get h (reuse3 h c k1 k2 v1 v2) k2 = some v2 := by
  obtain ⟨m, hm⟩ := nextPow2_pow2 c
  have hmcap : (with_capacity c : OpenAddressingHashTable K V).capacity =
      2 ^ m := hm
  have hpos : 0 < (with_capacity c : OpenAddressingHashTable K V).capacity := by
    rw [hmcap]
    positivity
  have hlen : (with_capacity c : OpenAddressingHashTable K V).table.length =
      (with_capacity c : OpenAddressingHashTable K V).capacity :=
    (wf_with_capacity c).len_eq
  refine get_found0 h k2 v2 _ hpos ?_
  show ((reuse2 h c k1 v1).table.set
    (hash_key h (with_capacity c : OpenAddressingHashTable K V) k2 0)
    (.occupied k2 v2)).getD
    (hash_key h (with_capacity c : OpenAddressingHashTable K V) k2 0)
    .empty = _
  refine getD_set_self _ _ _ _ ?_
  show _ < ((reuse1 h c k1 v1).table.set
    (hash_key h (with_capacity c : OpenAddressingHashTable K V) k1 0)
    .deleted).length
  rw [List.length_set]
  show _ < ((with_capacity c : OpenAddressingHashTable K V).table.set
    (hash_key h (with_capacity c : OpenAddressingHashTable K V) k1 0)
    (.occupied k1 v1)).length
  rw [List.length_set, hlen]
  exact hash_key_lt h _ k2 0 hpos

theorem reuse3_get_k1 (h : K → Nat) (c : Nat) (k1 k2 : K) (v1 v2 : V)
    (hne : k1 ≠ k2)
    (hcol : h k1 % (with_capacity c : OpenAddressingHashTable K V).capacity =
      h k2 % (with_capacity c : OpenAddressingHashTable K V).capacity) :
    get h (reuse3 h c k1 k2 v1 v2) k1 = none := by
  obtain ⟨m, hm⟩ := nextPow2_pow2 c
  have hmcap : (with_capacity c : OpenAddressingHashTable K V).capacity =
      2 ^ m := hm
  have hpos : 0 < (with_capacity c : OpenAddressingHashTable K V).capacity := by
    rw [hmcap]
    positivity
  have hlen : (with_capacity c : OpenAddressingHashTable K V).table.length =
      (with_capacity c : OpenAddressingHashTable K V).capacity :=
    (wf_with_capacity c).len_eq
  have hP : hash_key h (with_capacity c : OpenAddressingHashTable K V) k2 0 =
      hash_key h (with_capacity c : OpenAddressingHashTable K V) k1 0 := by
    rw [hash_key_eq_mod h _ k2 0 hmcap, hash_key_eq_mod h _ k1 0 hmcap,
      Nat.add_zero, Nat.add_zero]
    exact hcol.symm
  have hmcap3 : (reuse3 h c k1 k2 v1 v2).capacity = 2 ^ m := hmcap
  refine get_eq_none_of_not_mem h _ k1 hmcap3 ?_
  intro i v hi hcontra
  have hi' : i < (with_capacity c : OpenAddressingHashTable K V).capacity := hi
  have hlen1 : (hash_key h (with_capacity c : OpenAddressingHashTable K V)
      k1 0) < (reuse2 h c k1 v1).table.length := by
    show _ < ((reuse1 h c k1 v1).table.set
      (hash_key h (with_capacity c : OpenAddressingHashTable K V) k1 0)
      .deleted).length
    rw [List.length_set]
    show _ < ((with_capacity c : OpenAddressingHashTable K V).table.set
      (hash_key h (with_capacity c : OpenAddressingHashTable K V) k1 0)
      (.occupied k1 v1)).length
    rw [List.length_set, hlen]
    exact hash_key_lt h _ k1 0 hpos
  have hcontra' : ((reuse2 h c k1 v1).table.set
      (hash_key h (with_capacity c : OpenAddressingHashTable K V) k2 0)
      (.occupied k2 v2)).getD i .empty = .occupied k1 v := hcontra
  rw [hP] at hcontra'
  by_cases hip :
      i = hash_key h (with_capacity c : OpenAddressingHashTable K V) k1 0
  · rw [hip, getD_set_self _ _ _ _ hlen1] at hcontra'
    injection hcontra' with hk _
    exact hne (hk ▸ rfl)
  · rw [getD_set_ne _ _ _ _ _ (fun hh => hip hh.symm)] at hcontra'
    have hcontra2 : ((reuse1 h c k1 v1).table.set
        (hash_key h (with_capacity c : OpenAddressingHashTable K V) k1 0)
        .deleted).getD i .empty = .occupied k1 v := hcontra'
    rw [getD_set_ne _ _ _ _ _ (fun hh => hip hh.symm)] at hcontra2
    have hcontra3 : (((with_capacity c : OpenAddressingHashTable K V)).table.set
        (hash_key h (with_capacity c : OpenAddressingHashTable K V) k1 0)
        (.occupied k1 v1)).getD i .empty = .occupied k1 v := hcontra2
    rw [getD_set_ne _ _ _ _ _ (fun hh => hip hh.symm)] at hcontra3
    rw [with_capacity_table] at hcontra3
    rw [getD_replicate _ _ _ _
      (by rwa [with_capacity_capacity] at hi')] at hcontra3
    exact Entry.noConfusion hcontra3

/-- C1 counterexample: on the reachable state `tombState`, key 4 is present
with stored value 20 and `size = 1`, and a `Deleted` slot occurs earlier
than key 4's occupied slot in its probe sequence; `insert(4, 30)`
nevertheless returns `None` (not `Some 20`) and increments `size` to 2,
refuting the claim that such an insert replaces in place, returns the old
value and leaves `size` unchanged. -/
theorem insert_existing_key_tombstone_cex :
    runOps natHash [Op.ins 0 10, Op.ins 4 20, Op.del 0] (with_capacity 4) =
      some tombState ∧
    Reachable natHash tombState ∧
    get natHash tombState 4 = some 20 ∧
    tombState.size = 1 ∧
    insert natHash tombState 4 30 = some (none, dupState) ∧
    dupState.size = 2 :=
  ⟨by decide,
   runOps_reachable natHash [Op.ins 0 10, Op.ins 4 20, Op.del 0]
     (with_capacity 4) tombState (Reachable.base 4) (by decide),
   by decide, by decide, by decide, by decide⟩

/-- C1 (amended): if no `Deleted` or `Empty` slot occurs before key `k`'s
occupied slot in `k`'s probe sequence (every earlier probed slot is
`Occupied` by a different key) and the insert does not trigger a resize,
then `insert(k, v2)` replaces the stored value in place, returns
`Some` of the previous value, and leaves `size` unchanged (the resulting
state differs only in that one slot). -/
theorem insert_replaces_when_no_earlier_tombstone (h : K → Nat)
    (t : OpenAddressingHashTable K V) (key : K) (v2 vOld : V) (p : Nat)
    (m : Nat) (hm : t.capacity = 2 ^ m)
    (hsr : should_resize t = false) (hp : p < t.capacity)
    (hocc : slotAt t ((h key + p) % t.capacity) = .occupied key vOld)
    (hbefore : ∀ j, j < p →
      occOther (slotAt t ((h key + j) % t.capacity)) key = true) :
    insert h t key v2 =
      some (some vOld, { t with table := t.table.set ((h key + p) % t.capacity) (.occupied key v2) }) := by
  unfold insert
  rw [insertF_eq_insertGo h 2 t key v2 hsr]
  have hconv : ∀ j, hash_key h t key (0 + j) = (h key + j) % t.capacity := by
    intro j
    rw [Nat.zero_add]
    exact hash_key_eq_mod h t key j hm
  have hfind := insertGo_finds_occupied h key v2 t p t.capacity 0 hp
    (fun j hj => by rw [hconv j]; exact hbefore j hj) vOld
    (by rw [hconv p]; exact hocc)
  rw [hfind, hconv p]

/-- Witness for the amended C1 theorem at a concrete table. -/
theorem insert_replaces_when_no_earlier_tombstone_witness :
    insert natHash twoKeyState 4 99 =
      some (some 20, { twoKeyState with table := twoKeyState.table.set ((natHash 4 + 1) % twoKeyState.capacity) (.occupied 4 99) }) :=
  insert_replaces_when_no_earlier_tombstone natHash twoKeyState 4 99 20 1
    2 (by decide) (by decide) (by decide) (by decide) (by decide)

/-- C2 counterexample: inserting the twelve distinct keys 0..11 into a
fresh `new()` map (capacity 16) never triggers a resize, and right after
the twelfth insert the load factor is 12/16 = 0.75, which exceeds the
threshold 0.7 (`10 * size > 7 * capacity`), refuting the claim that
`size / capacity ≤ 0.7` holds immediately after every insert. -/
theorem insert_load_factor_exceeded_cex :
    runOps natHash [Op.ins 0 0, Op.ins 1 1, Op.ins 2 2, Op.ins 3 3,
      Op.ins 4 4, Op.ins 5 5, Op.ins 6 6, Op.ins 7 7, Op.ins 8 8,
      Op.ins 9 9, Op.ins 10 10, Op.ins 11 11] new = some twelveState ∧
    Reachable natHash twelveState ∧
    7 * twelveState.capacity < 10 * twelveState.size :=
  ⟨by decide,
   runOps_reachable natHash [Op.ins 0 0, Op.ins 1 1, Op.ins 2 2,
     Op.ins 3 3, Op.ins 4 4, Op.ins 5 5, Op.ins 6 6, Op.ins 7 7,
     Op.ins 8 8, Op.ins 9 9, Op.ins 10 10, Op.ins 11 11] new twelveState
     (Reachable.base 16) (by decide),
   by decide⟩

/-- C2 (amended): the resize check compares the PRE-insert ratio with the
threshold (`should_resize` is `size / capacity > 0.7` before the new entry
is placed), so immediately after every insert on a reachable state the
bound `(size - 1) / capacity ≤ 0.7` holds, i.e.
`10 * (size - 1) ≤ 7 * capacity`; the post-insert ratio itself may exceed
the threshold by at most one slot. -/
theorem insert_load_factor_bound (h : K → Nat)
    (t : OpenAddressingHashTable K V) (key : K) (value : V) (r : Option V)
    (t' : OpenAddressingHashTable K V) (ht : Reachable h t)
    (hins : insert h t key value = some (r, t')) :
    10 * (t'.size - 1) ≤ 7 * t'.capacity :=
  (insertF_wf h 2 t key value r t' (reachable_wf h t ht) hins).2

/-- Witness for the amended C2 theorem at a concrete insert. -/
theorem insert_load_factor_bound_witness :
    10 * (oneKeyState.size - 1) ≤ 7 * oneKeyState.capacity :=
  insert_load_factor_bound natHash (with_capacity 4) 0 10 none oneKeyState
    (Reachable.base 4) (by decide)

/-- C4 counterexample: on the reachable duplicate-key state `dupState`
(key 4 stored in two slots after a tombstone reuse), `remove(4)` returns
`Some 30` and an immediately following `remove(4)` returns `Some 20`, not
`None`, refuting removal idempotence as stated. -/
theorem remove_twice_both_some_cex :
    runOps natHash [Op.ins 0 10, Op.ins 4 20, Op.del 0, Op.ins 4 30]
      (with_capacity 4) = some dupState ∧
    Reachable natHash dupState ∧
    (remove natHash dupState 4).1 = some 30 ∧
    (remove natHash (remove natHash dupState 4).2 4).1 = some 20 :=
  ⟨by decide,
   runOps_reachable natHash [Op.ins 0 10, Op.ins 4 20, Op.del 0,
     Op.ins 4 30] (with_capacity 4) dupState (Reachable.base 4) (by decide),
   by decide, by decide⟩

/-- C4 (amended): if the key occupies at most one slot of the table (which
every state reachable without the duplicate-creating tombstone reuse
satisfies), then a successful `remove(k)` is followed by a `remove(k)` that
returns `None`. -/
theorem remove_remove_none_of_at_most_one (h : K → Nat)
    (t : OpenAddressingHashTable K V) (key : K) (v : V)
    (t' : OpenAddressingHashTable K V) (hwf : Wf t)
    (hone : AtMostOne key t) (hrem : remove h t key = (some v, t')) :
    (remove h t' key).1 = none := by
  have hpos := capacity_pos_of_wf hwf
  rcases removeGo_cases h key t t.capacity 0 (some v) t' hrem with
    ⟨hnone, -⟩ | ⟨v0, d, hd, hr, hocc, ht'⟩
  · cases hnone
  · have hidxlt : hash_key h t key (0 + d) < t.table.length := by
      rw [hwf.len_eq]
      exact hash_key_lt h t key _ hpos
    subst ht'
    have habs : ∀ i v',
        i < (t.table.set (hash_key h t key (0 + d)) Entry.deleted).length →
        (t.table.set (hash_key h t key (0 + d)) Entry.deleted).getD i
          .empty ≠ .occupied key v' := by
      intro i v' hi hcontra
      rw [List.length_set] at hi
      by_cases hieq : hash_key h t key (0 + d) = i
      · rw [← hieq, getD_set_self t.table _ _ _ hidxlt] at hcontra
        cases hcontra
      · rw [getD_set_ne _ _ _ _ _ hieq] at hcontra
        have h1 : isKeyAt key (t.table.getD i .empty) = true := by
          rw [hcontra]
          simp [isKeyAt]
        have h2 : isKeyAt key
            (t.table.getD (hash_key h t key (0 + d)) .empty) = true := by
          rw [hocc]
          simp [isKeyAt]
        exact hieq (hone _ hidxlt i hi h2 h1)
    unfold remove
    have hnoop := removeGo_none_of_absent h key
      ({ table := t.table.set (hash_key h t key (0 + d)) Entry.deleted,
         size := t.size - 1, capacity := t.capacity } :
        OpenAddressingHashTable K V)
      habs
      (by
        show (t.table.set (hash_key h t key (0 + d)) Entry.deleted).length =
          t.capacity
        rw [List.length_set]
        exact hwf.len_eq)
      hpos
      ({ table := t.table.set (hash_key h t key (0 + d)) Entry.deleted,
         size := t.size - 1, capacity := t.capacity } :
        OpenAddressingHashTable K V).capacity
      0
    rw [hnoop]

/-- Witness for the amended C4 theorem at a concrete table. -/
theorem remove_remove_none_of_at_most_one_witness :
    (remove natHash (remove natHash singleState 4).2 4).1 = none :=
  remove_remove_none_of_at_most_one natHash singleState 4 20
    (remove natHash singleState 4).2
    ⟨by decide, ⟨2, by decide⟩, by decide⟩ (by unfold AtMostOne; decide)
    (by decide)

/-- C3 counterexample: on the reachable duplicate-key state `dupState`,
`get(4)` returns `Some 30` before a resize but `Some 20` after it (the
re-insertion collapses the two copies of key 4, keeping the stale value),
refuting the claim that resize never changes the logical key-value
mapping on reachable states. -/
theorem resize_changes_mapping_cex :
    runOps natHash [Op.ins 0 10, Op.ins 4 20, Op.del 0, Op.ins 4 30]
      (with_capacity 4) = some dupState ∧
    Reachable natHash dupState ∧
    get natHash dupState 4 = some 30 ∧
    (resize natHash dupState).map (fun s => get natHash s 4) =
      some (some 20) :=
  ⟨by decide,
   runOps_reachable natHash [Op.ins 0 10, Op.ins 4 20, Op.del 0,
     Op.ins 4 30] (with_capacity 4) dupState (Reachable.base 4) (by decide),
   by decide, by decide⟩

/-- C3 (amended): on every well-formed state in which no key occupies two
slots and every stored entry is retrievable by `get` (the probe-chain
invariant; reachable states can violate the one-slot condition only
through the tombstone-reuse path shown in the counterexample), `resize`
succeeds and preserves `get` for every key. -/
theorem resize_preserves_get_amended (h : K → Nat)
    (t : OpenAddressingHashTable K V) (hwf : Wf t) (hnd : KeysNodup t)
    (hretr : AllRetrievable h t) :
    ∃ t', resize h t = some t' ∧ ∀ k, get h t' k = get h t k := by
  obtain ⟨m, hm⟩ := hwf.pow2
  have hpos := capacity_pos_of_wf hwf
  have hinitcap : ({ table := List.replicate (t.capacity * 2) .empty, size := 0, capacity := t.capacity * 2 } : OpenAddressingHashTable K V).capacity = 2 ^ (m + 1) := by
    show t.capacity * 2 = 2 ^ (m + 1)
    rw [hm, Nat.pow_succ]
  have hinit_get : ∀ k, get h ({ table := List.replicate (t.capacity * 2) .empty, size := 0, capacity := t.capacity * 2 } : OpenAddressingHashTable K V) k = assocFind [] k := by
    intro k
    rw [show assocFind ([] : List (K × V)) k = none from rfl]
    refine get_eq_none_of_not_mem h _ k hinitcap ?_
    intro i v hi hcontra
    have hcontra' : (List.replicate (t.capacity * 2)
        (Entry.empty : Entry K V)).getD i .empty = .occupied k v := hcontra
    rw [getD_replicate _ _ _ _ hi] at hcontra'
    exact Entry.noConfusion hcontra'
  have hretr0 : AllRetrievable h ({ table := List.replicate (t.capacity * 2) .empty, size := 0, capacity := t.capacity * 2 } : OpenAddressingHashTable K V) := by
    intro i k v hi hcontra
    have hcontra' : (List.replicate (t.capacity * 2)
        (Entry.empty : Entry K V)).getD i .empty = .occupied k v := hcontra
    rw [getD_replicate _ _ _ _ (by simpa using hi)] at hcontra'
    exact Entry.noConfusion hcontra'
  obtain ⟨out, hout, hgetout⟩ := reinsertAll_pres h 1 t.capacity t.table []
    ({ table := List.replicate (t.capacity * 2) .empty, size := 0, capacity := t.capacity * 2 } : OpenAddressingHashTable K V)
    (by show t.capacity * 2 = 2 * t.capacity; ring)
    hpos
    ⟨m + 1, hinitcap⟩
    (by
      show (List.replicate (t.capacity * 2)
        (Entry.empty : Entry K V)).length = t.capacity * 2
      simp)
    (by
      show (0 : Nat) = occupiedCount (List.replicate (t.capacity * 2)
        (Entry.empty : Entry K V))
      rw [occupiedCount_replicate_empty])
    (by simp)
    (by
      rw [List.length_nil, occPairs_length, Nat.zero_add]
      calc occupiedCount t.table ≤ t.table.length :=
            occupiedCount_le_length _
        _ = t.capacity := hwf.len_eq)
    (by rw [List.nil_append]; exact hnd)
    hretr0 hinit_get
  refine ⟨out, hout, ?_⟩
  intro k
  rw [hgetout k, List.nil_append]
  exact (get_eq_assocFind_of_nodup h t hwf hnd hretr k).symm

/-- Witness for the amended C3 theorem at a concrete duplicate-free
table. -/
theorem resize_preserves_get_amended_witness :
    ∃ t', resize natHash twoKeyState = some t' ∧
      ∀ k, get natHash t' k = get natHash twoKeyState k :=
  resize_preserves_get_amended natHash twoKeyState
    ⟨by decide, ⟨2, by decide⟩, by decide⟩
    (by unfold KeysNodup; decide)
    (by
      intro i k v hi hs
      have hi' : i < 4 := by simpa using hi
      interval_cases i
      · cases hs; decide
      · cases hs; decide
      · exact Entry.noConfusion hs
      · exact Entry.noConfusion hs)

/-- C5: on every reachable state, `insert` never reaches its panic branch
(there is always an `Empty`, `Deleted` or matching slot within `capacity`
probes, thanks to the resize policy keeping `size < capacity`); moreover
the probe loop exhausts its `capacity` probes without placing exactly when
every probed slot is `Occupied` by a different key, which is the only way
the panic is reached. -/
theorem insert_never_panics (h : K → Nat)
    (t : OpenAddressingHashTable K V) (key : K) (value : V)
    (ht : Reachable h t) :
    insert h t key value ≠ none ∧
    (insertGo h key value t t.capacity 0 = none ↔
      ∀ i, i < t.capacity →
        occOther (slotAt t ((h key + i) % t.capacity)) key = true) := by
  have hwf := reachable_wf h t ht
  obtain ⟨m, hm⟩ := hwf.pow2
  exact ⟨insertF_ne_none h t key value hwf 2 (by omega),
    insertGo_eq_none_iff h key value t hm⟩

/-- Witness for the C5 theorem at a concrete reachable state. -/
theorem insert_never_panics_witness :
    insert natHash (with_capacity 4 : OpenAddressingHashTable Nat Nat) 0 1 ≠
      none ∧
    (insertGo natHash 0 1 (with_capacity 4 : OpenAddressingHashTable Nat Nat)
        (with_capacity 4 : OpenAddressingHashTable Nat Nat).capacity 0 =
        none ↔
      ∀ i, i < (with_capacity 4 : OpenAddressingHashTable Nat Nat).capacity →
        occOther (slotAt (with_capacity 4 : OpenAddressingHashTable Nat Nat)
          ((natHash 0 + i) %
            (with_capacity 4 : OpenAddressingHashTable Nat Nat).capacity))
          0 = true) :=
  insert_never_panics natHash (with_capacity 4) 0 1 (Reachable.base 4)

/-- C6: on every state reachable by insert, remove and resize operations
from a freshly constructed map, the `size` field equals the number of
`Occupied` slots of the table. -/
theorem size_counts_occupied_slots (h : K → Nat)
    (t : OpenAddressingHashTable K V) (ht : Reachable h t) :
    t.size = occupiedCount t.table :=
  (reachable_wf h t ht).size_eq

/-- Witness for the C6 theorem at a concrete reachable state. -/
theorem size_counts_occupied_slots_witness :
    dupState.size = occupiedCount dupState.table :=
  size_counts_occupied_slots natHash dupState
    (runOps_reachable natHash [Op.ins 0 10, Op.ins 4 20, Op.del 0,
      Op.ins 4 30] (with_capacity 4) dupState (Reachable.base 4) (by decide))

/-- C7: `get` probes linearly from `hash(key) mod capacity`: it returns
`Some v` exactly when some probe position `i < capacity` holds an
`Occupied` slot with the key (value `v`) while every earlier probed slot
is skipped (`Occupied` with a different key, or `Deleted` — never `Empty`,
which terminates the search), and it returns `None` exactly when no such
position exists (in particular after exhausting all `capacity` probes);
`get` is total, so an absent key yields `None` rather than an error. -/
theorem get_probe_characterization (h : K → Nat)
    (t : OpenAddressingHashTable K V) (key : K) (m : Nat)
    (hm : t.capacity = 2 ^ m) :
    (∀ v, get h t key = some v ↔ ∃ i, i < t.capacity ∧
      slotAt t ((h key + i) % t.capacity) = .occupied key v ∧
      ∀ j, j < i →
        isSkip (slotAt t ((h key + j) % t.capacity)) key = true) ∧
    (get h t key = none ↔ ¬ ∃ v i, i < t.capacity ∧
      slotAt t ((h key + i) % t.capacity) = .occupied key v ∧
      ∀ j, j < i →
        isSkip (slotAt t ((h key + j) % t.capacity)) key = true) :=
  ⟨fun v => get_spec_some h t key v hm, get_spec_none h t key hm⟩

/-- Witness for the C7 theorem at a concrete table: key 4 sits at probe
position 1 behind one colliding entry. -/
theorem get_probe_characterization_witness :
    get natHash twoKeyState 4 = some 20 :=
  ((get_probe_characterization natHash twoKeyState 4 2 (by decide)).1
    20).mpr ⟨1, by decide, by decide, by decide⟩

/-- C8: on every reachable state, `insert(k, v)` followed immediately by
`get(k)` on the resulting state returns `Some v`. -/
theorem insert_then_get_roundtrip (h : K → Nat)
    (t : OpenAddressingHashTable K V) (key : K) (value : V) (r : Option V)
    (t' : OpenAddressingHashTable K V) (ht : Reachable h t)
    (hins : insert h t key value = some (r, t')) :
    get h t' key = some value := by
  obtain ⟨t1, hgo, hwf1, -, -⟩ :=
    insertF_mid h 2 t key value r t' (reachable_wf h t ht) hins
  obtain ⟨m, hm⟩ := hwf1.pow2
  exact insertGo_get_self h key value t1 r t' hwf1.len_eq hm hgo

/-- Witness for the C8 theorem: the round trip holds even on the
tombstone state where the insert fills a tombstone ahead of the old
copy. -/
theorem insert_then_get_roundtrip_witness :
    get natHash dupState 4 = some 30 :=
  insert_then_get_roundtrip natHash tombState 4 30 none dupState
    (runOps_reachable natHash [Op.ins 0 10, Op.ins 4 20, Op.del 0]
      (with_capacity 4) tombState (Reachable.base 4) (by decide))
    (by decide)

/-- C9: on a freshly constructed map, after
`insert(k1,v1); remove(k1); insert(k2,v2)` with `k1 ≠ k2` hashing to the
same initial probe index, `get(k2)` returns `Some v2` (the tombstone slot
is reused) and `get(k1)` returns `None`. -/
theorem tombstone_reuse_on_collision (h : K → Nat) (c : Nat) (k1 k2 : K)
    (v1 v2 : V) (hne : k1 ≠ k2)
    (hcol : h k1 % (with_capacity c : OpenAddressingHashTable K V).capacity =
      h k2 % (with_capacity c : OpenAddressingHashTable K V).capacity) :
    ∃ t3, runOps h [Op.ins k1 v1, Op.del k1, Op.ins k2 v2]
        (with_capacity c) = some t3 ∧
      get h t3 k2 = some v2 ∧ get h t3 k1 = none :=
  ⟨reuse3 h c k1 k2 v1 v2, reuse_chain h c k1 k2 v1 v2 hcol,
   reuse3_get_k2 h c k1 k2 v1 v2, reuse3_get_k1 h c k1 k2 v1 v2 hne hcol⟩

/-- Witness for the C9 theorem at a concrete collision (keys 0 and 4 on a
capacity-4 table). -/
theorem tombstone_reuse_on_collision_witness :
    ∃ t3, runOps natHash [Op.ins 0 1, Op.del 0, Op.ins 4 2]
        (with_capacity 4) = some t3 ∧
      get natHash t3 4 = some 2 ∧ get natHash t3 0 = none :=
  tombstone_reuse_on_collision natHash 4 0 4 1 2 (by decide) (by decide)

/-- C10: a `remove` that returns `None` leaves the state completely
unchanged — the resulting state is equal (as a record: table, size and
capacity) to the original. -/
theorem remove_miss_is_noop (h : K → Nat)
    (t : OpenAddressingHashTable K V) (key : K)
    (t' : OpenAddressingHashTable K V)
    (hrem : remove h t key = (none, t')) : t' = t :=
  (removeGo_props h key t t.capacity 0 none t' hrem).2.2.1 rfl

/-- Witness for the C10 theorem at a concrete miss. -/
theorem remove_miss_is_noop_witness :
    (remove natHash oneKeyState 5).2 = oneKeyState :=
  remove_miss_is_noop natHash oneKeyState 5
    (remove natHash oneKeyState 5).2 (by decide)

end OpenAddressingHashTable

end OriginByte
